import Mathlib

/-!
Verification of the Vector-Store repository (a KD-tree embedding store with an
LRU cache/eviction layer) against its natural-language specification.

Embedding conventions, fixed once for the whole development:

* Rust `f64` coordinates are idealized as `ℚ`.  The code's
  `euclidean_distance` computes `√(Σ (xᵢ - yᵢ)²)` and the computed value is
  only ever *compared* — with other distances and with `|t[axis] - p[axis]|`,
  both nonnegative.  Since `x ↦ √x` is strictly monotone on nonnegatives, we
  embed the squared distance (`euclidean_distance_sq`) and square the axis
  difference at each comparison site; every comparison in the program agrees
  with the original under this translation, and no `√` is needed.
* `Option<Box<Node>>` is embedded as the inductive `Tree` (constructor `leaf`
  is Rust's `None`, `node` is `Some(Box(Node { .. }))`).
* Rust panics (out-of-bounds axis in `insert_recursive`, including the
  explicit `panic!` guard) are embedded as `Option`: `none` is a panic.
* The query functions index `target.embedding[axis]` and
  `point.embedding[axis]` with Rust's panicking indexing; they are embedded
  with the total `coord` (getD with default 0).  Every theorem below carries
  hypotheses (all stored embeddings and the target have length `k`, `0 < k`)
  under which each such access is in bounds, where `coord` agrees with Rust
  indexing; so the totalization is unobservable inside the theorems.
* `HashMap<String, KDTreeCache>` is embedded as an association list in
  iteration order, `Instant` as an abstract `ℕ` timestamp, and the `bin`
  directory as a function from tree name to optional durable byte stream.
-/

namespace VectorStore

/-- Point from src/kdtree.rs: an embedding vector and its payload chunk. -/
structure Point where
  embedding : List ℚ
  data : String
deriving DecidableEq

/-- Point::len — the length of the embedding vector. -/
def Point.len (p : Point) : ℕ := p.embedding.length

/-- Rust `Option<Box<Node>>`: `leaf` is `None`; `node point left right axis`
is `Some(Box(Node { point, left, right, axis }))` (src/kdtree.rs Node). -/
inductive Tree where
  | leaf : Tree
  | node (point : Point) (left right : Tree) (axis : ℕ) : Tree
deriving DecidableEq

/-- KDTree from src/kdtree.rs: optional root plus dimensionality `k`. -/
structure KDTree where
  root : Tree
  k : ℕ
deriving DecidableEq

/-- KDTree::new. -/
def KDTree.new (k : ℕ) : KDTree := ⟨Tree.leaf, k⟩

/-- Total stand-in for Rust's panicking `Vec` indexing `l[i]`; all theorems
keep every use in bounds, where it agrees with Rust. -/
def coord (l : List ℚ) (i : ℕ) : ℚ := l.getD i 0

/-- euclidean_distance from src/kdtree.rs, squared (see the header note):
`a.iter().zip(b.iter()).map(|(x, y)| (x - y).powi(2)).sum::<f64>()` — the
final `.sqrt()` is dropped because only order matters and `√` is monotone.
Note `zip` truncates to the shorter list exactly as Rust's `zip` does. -/
def euclidean_distance_sq (a b : List ℚ) : ℚ :=
  ((a.zip b).map (fun p => (p.1 - p.2) ^ 2)).sum

/-- KDTree::insert_recursive.  `none` is a Rust panic: the explicit
`panic!` when `axis >= point.embedding.len()`, or the implicit index panic
when reading `current_node.point.embedding[axis]`. -/
def insert_recursive (node : Tree) (point : Point) (depth k : ℕ) : Option Tree :=
  match node with
  | .node p l r ax =>
    let axis := depth % k
    if point.embedding.length ≤ axis then none
    else if p.embedding.length ≤ axis then none
    else if coord point.embedding axis < coord p.embedding axis then
      (insert_recursive l point (depth + 1) k).map (fun l2 => Tree.node p l2 r ax)
    else
      (insert_recursive r point (depth + 1) k).map (fun r2 => Tree.node p l r2 ax)
  | .leaf => some (Tree.node point Tree.leaf Tree.leaf (depth % k))

/-- KDTree::insert — `self.root = insert_recursive(self.root.take(), point, 0, self.k)`. -/
def KDTree.insert (t : KDTree) (point : Point) : Option KDTree :=
  (insert_recursive t.root point 0 t.k).map (fun r => ⟨r, t.k⟩)

/-- Repeated KDTree::insert, left to right; `none` as soon as one insert panics. -/
def insertAll (t : KDTree) (pts : List Point) : Option KDTree :=
  pts.foldlM KDTree.insert t

/-- The running best of `nearest_recursive`: `none` is the initial
`(None, f64::INFINITY)` pair; `some (p, d)` holds the best point and its
(squared) distance. -/
def distLtBest (d : ℚ) (best : Option (Point × ℚ)) : Bool :=
  match best with
  | none => true
  | some (_, bd) => d < bd

/-- KDTree::nearest_recursive (src/kdtree.rs:148-179), with the two `&mut`
out-parameters threaded as the `best` argument. -/
def nearest_recursive (node : Tree) (target : Point) (depth k : ℕ)
    (best : Option (Point × ℚ)) : Option (Point × ℚ) :=
  match node with
  | .leaf => best
  | .node p l r _ =>
    let axis := depth % k
    let dist := euclidean_distance_sq p.embedding target.embedding
    let best1 := if distLtBest dist best then some (p, dist) else best
    let tc := coord target.embedding axis
    let cc := coord p.embedding axis
    if tc < cc then
      let best2 := nearest_recursive l target (depth + 1) k best1
      if distLtBest ((tc - cc) ^ 2) best2 then
        nearest_recursive r target (depth + 1) k best2
      else best2
    else
      let best2 := nearest_recursive r target (depth + 1) k best1
      if distLtBest ((tc - cc) ^ 2) best2 then
        nearest_recursive l target (depth + 1) k best2
      else best2

/-- KDTree::nearest_neighbor. -/
def KDTree.nearest_neighbor (t : KDTree) (target : Point) : Option Point :=
  (nearest_recursive t.root target 0 t.k none).map Prod.fst

/-- One step of `fold(f64::INFINITY, f64::min)`, with `none` playing
f64::INFINITY (min with infinity is the other operand). -/
def fold_min_step : Option ℚ → ℚ → Option ℚ
  | none, dv => some dv
  | some m, dv => some (min m dv)

/-- The `results.iter().map(|(d, _)| *d).fold(f64::INFINITY, f64::min)` of
`nearest_recursive_n`, on a list of rationals; `none` is `f64::INFINITY`. -/
def fold_min (l : List ℚ) : Option ℚ := l.foldl fold_min_step none

/-- Pruning test of `nearest_recursive_n`: squared axis gap strictly below the
folded minimum (`anything < f64::INFINITY` when nothing was collected). -/
def ltFoldMin (d : ℚ) (results : List (ℚ × Point)) : Bool :=
  match fold_min (results.map Prod.fst) with
  | none => true
  | some m => d < m

/-- KDTree::nearest_recursive_n (src/kdtree.rs:105-137): pushes every visited
node into `results`, then prunes the opposite branch against the minimum
distance collected so far. -/
def nearest_recursive_n (node : Tree) (target : Point) (depth k : ℕ)
    (results : List (ℚ × Point)) : List (ℚ × Point) :=
  match node with
  | .leaf => results
  | .node p l r _ =>
    let axis := depth % k
    let dist := euclidean_distance_sq p.embedding target.embedding
    let results1 := results ++ [(dist, p)]
    let tc := coord target.embedding axis
    let cc := coord p.embedding axis
    if tc < cc then
      let results2 := nearest_recursive_n l target (depth + 1) k results1
      if ltFoldMin ((tc - cc) ^ 2) results2 then
        nearest_recursive_n r target (depth + 1) k results2
      else results2
    else
      let results2 := nearest_recursive_n r target (depth + 1) k results1
      if ltFoldMin ((tc - cc) ^ 2) results2 then
        nearest_recursive_n l target (depth + 1) k results2
      else results2

/-- Stable insertion of one keyed element: the new element goes after every
already-placed element whose key is ≤ its own. -/
def insertSorted (x : ℚ × Point) : List (ℚ × Point) → List (ℚ × Point)
  | [] => [x]
  | y :: ys => if y.1 ≤ x.1 then y :: insertSorted x ys else x :: y :: ys

/-- Rust's `results.sort_by(|(a, _), (b, _)| a.partial_cmp(b)...)` — a stable
sort by the distance component.  Any stable sort with the same comparator is
extensionally the same function, so we embed it as the structurally recursive
stable insertion sort (left-to-right fold, insert-after-equals). -/
def sortByDist (l : List (ℚ × Point)) : List (ℚ × Point) :=
  l.foldl (fun acc x => insertSorted x acc) []

/-- KDTree::nearest_neighbors_topn (src/kdtree.rs:86-102). -/
def KDTree.nearest_neighbors_topn (t : KDTree) (target : Point) (n : ℕ) :
    Option (List Point) :=
  let results := nearest_recursive_n t.root target 0 t.k []
  let sorted := sortByDist results
  let top_n_points := (sorted.take n).map Prod.snd
  if top_n_points.isEmpty then none else some top_n_points

/-- KDTree::count_nodes. -/
def count_nodes : Tree → ℕ
  | .leaf => 0
  | .node _ l r _ => 1 + count_nodes l + count_nodes r

/-- KDTree::len — number of stored points. -/
def KDTree.len (t : KDTree) : ℕ := count_nodes t.root

/-- Specification-side view of a tree: the list of stored points, root first,
then left subtree, then right subtree. -/
def Tree.toList : Tree → List Point
  | .leaf => []
  | .node p l r _ => p :: (l.toList ++ r.toList)

/-- Specification-side KD-tree shape invariant for a subtree sitting at depth
`d` of a `k`-dimensional tree: every point in the left subtree is strictly
below the node on the node's split axis `d % k`, every point in the right
subtree is not, recursively (this is exactly what `insert_recursive`
establishes, since it branches on `point.embedding[axis] < node[axis]`). -/
def Inv : Tree → ℕ → ℕ → Prop
  | .leaf, _, _ => True
  | .node p l r _, d, k =>
    (∀ q ∈ l.toList, coord q.embedding (d % k) < coord p.embedding (d % k)) ∧
    (∀ q ∈ r.toList, ¬ coord q.embedding (d % k) < coord p.embedding (d % k)) ∧
    Inv l (d + 1) k ∧ Inv r (d + 1) k

/-- All stored embeddings have length `k`. -/
def AllLen (t : Tree) (k : ℕ) : Prop := ∀ q ∈ t.toList, q.embedding.length = k

/-- Modelled from the spec: `save_to_file`/`load_from_file` delegate the byte
encoding to the external `bincode` crate, which is not part of this
repository; §6 of the spec fixes its contract — a binary form holding the
dimensionality and the full recursive tree structure (points, split axes,
child presence).  We model the byte stream as a list of primitive tokens
(bincode encodes integers, floats and strings injectively), laid out in
bincode's order: struct fields in declaration order, `Option` as a presence
tag followed by the payload, `Vec`/`String` as a length followed by the
elements. -/
inductive Token where
  | nat (n : ℕ) : Token
  | rat (q : ℚ) : Token
  | str (s : String) : Token
deriving DecidableEq

/-- Encoding of a Point: embedding length, elements, then the payload. -/
def encodePoint (p : Point) : List Token :=
  Token.nat p.embedding.length :: (p.embedding.map Token.rat ++ [Token.str p.data])

/-- Encoding of `Option<Box<Node>>`: presence tag, then (for a node) the
point, the left and right subtrees, and the split axis, in field order. -/
def encodeTree : Tree → List Token
  | .leaf => [Token.nat 0]
  | .node p l r ax =>
    Token.nat 1 :: (encodePoint p ++ encodeTree l ++ encodeTree r ++ [Token.nat ax])

/-- KDTree::save_to_file, minus the file handle: the byte stream written for
the whole index (root, then `k`).  Write errors are out of scope here; the
cache layer below models the directory as a name-indexed store. -/
def save_to_file (t : KDTree) : List Token := encodeTree t.root ++ [Token.nat t.k]

/-- Decoder for an embedding of known length; `none` is a bincode
DeserializationError. -/
def decodeEmbedding : ℕ → List Token → Option (List ℚ × List Token)
  | 0, ts => some ([], ts)
  | n + 1, Token.rat q :: ts =>
    match decodeEmbedding n ts with
    | some (qs, r) => some (q :: qs, r)
    | none => none
  | _ + 1, _ => none

/-- Decoder for a Point. -/
def decodePoint : List Token → Option (Point × List Token)
  | Token.nat len :: ts =>
    match decodeEmbedding len ts with
    | some (qs, Token.str s :: r) => some (⟨qs, s⟩, r)
    | _ => none
  | _ => none

/-- Decoder for a tree.  The fuel argument only bounds recursion depth (a
modelling artifact — bincode recursion is bounded by the input's length);
`load_from_file` supplies fuel that the round-trip lemmas show sufficient. -/
def decodeTree : ℕ → List Token → Option (Tree × List Token)
  | _, Token.nat 0 :: ts => some (Tree.leaf, ts)
  | fuel + 1, Token.nat 1 :: ts =>
    (decodePoint ts).bind (fun pr =>
      (decodeTree fuel pr.2).bind (fun lr =>
        (decodeTree fuel lr.2).bind (fun rr =>
          match rr.2 with
          | Token.nat ax :: ts4 => some (Tree.node pr.1 lr.1 rr.1 ax, ts4)
          | _ => none)))
  | _, _ => none

/-- KDTree::load_from_file, minus the file handle: decode the root and the
dimensionality from the byte stream (trailing bytes are not read, as with
`bincode::deserialize_from`); `none` is a DeserializationError. -/
def load_from_file (ts : List Token) : Option KDTree :=
  match decodeTree ts.length ts with
  | some (root, Token.nat k :: _) => some ⟨root, k⟩
  | _ => none

/-- KDTreeCache from src/src/main.rs: optional resident tree plus an Instant,
modelled as an abstract ℕ timestamp. -/
structure KDTreeCache where
  tree : Option KDTree
  last_accessed : ℕ
deriving DecidableEq

/-- The `HashMap<String, KDTreeCache>` behind the mutex, as an association
list in iteration order.  `HashMap` keys are unique; theorems that need this
carry a `Nodup` hypothesis on the key list. -/
abbrev CacheMap := List (String × KDTreeCache)

/-- Contents of the bin directory: the durable byte stream per tree name
(`none` = no file). -/
abbrev Disk := String → Option (List Token)

/-- Outcome of load_tree, separating Rust's io::ErrorKind::NotFound from
every other load failure. -/
inductive LoadResult where
  | ok (t : KDTree) : LoadResult
  | notFound : LoadResult
  | otherError : LoadResult
deriving DecidableEq

/-- load_tree (src/src/main.rs:46-55): NotFound when no durable file exists,
otherwise the bincode result (a deserialization failure is a non-NotFound
io::Error). -/
def load_tree (disk : Disk) (tree_name : String) : LoadResult :=
  match disk tree_name with
  | none => LoadResult.notFound
  | some bytes =>
    match load_from_file bytes with
    | some t => LoadResult.ok t
    | none => LoadResult.otherError

/-- offload_tree (src/src/main.rs:57-60): serialize the tree into its durable
file. -/
def offload_tree (disk : Disk) (tree_name : String) (tree : KDTree) : Disk :=
  fun n => if n = tree_name then some (save_to_file tree) else disk n

/-- std::mem::size_of::<KDTree>() on a 64-bit target: one `Option<Box<Node>>`
pointer (8) plus one usize (8). -/
def size_of_KDTree : ℕ := 16

/-- std::mem::size_of_val(node) for `node : &Box<Node>`: the fixed struct
size of Node — Vec header (24) + String header (24) + two option pointers
(8 + 8) + usize axis (8).  It does not include the heap storage behind the
Vec or the String: that is precisely what claim C7 is about. -/
def size_of_Node : ℕ := 72

/-- estimate_node_size (src/src/main.rs:71-81): the struct size of every
present node, recursively. -/
def estimate_node_size : Tree → ℕ
  | .leaf => 0
  | .node _ l r _ => size_of_Node + estimate_node_size l + estimate_node_size r

/-- estimate_memory_usage (src/src/main.rs:62-69). -/
def estimate_memory_usage (t : KDTree) : ℕ :=
  size_of_KDTree + estimate_node_size t.root

/-- Memory contribution of one cache entry in manage_memory's first pass:
the tree's estimate when resident, nothing otherwise. -/
def entry_memory (e : String × KDTreeCache) : ℕ :=
  match e.2.tree with
  | some t => estimate_memory_usage t
  | none => 0

/-- Step 1 of manage_memory: total estimated memory of the resident trees. -/
def total_memory (trees : CacheMap) : ℕ := (trees.map entry_memory).sum

/-- Number of resident entries. -/
def resident_count (trees : CacheMap) : ℕ :=
  (trees.filter (fun e => e.2.tree.isSome)).length

/-- One comparison of the LRU scan: a resident entry becomes the candidate
when there is none yet, or replaces it when strictly older. -/
def find_lru_step (acc : Option (String × KDTreeCache)) (e : String × KDTreeCache) :
    Option (String × KDTreeCache) :=
  if e.2.tree.isSome then
    match acc with
    | some lru => if e.2.last_accessed < lru.2.last_accessed then some e else acc
    | none => some e
  else acc

/-- The LRU scan inside manage_memory's loop (src/src/main.rs:97-108). -/
def find_lru (trees : CacheMap) : Option (String × KDTreeCache) :=
  trees.foldl find_lru_step none

/-- The `trees.get_mut(&tree_name)` + `cache.tree.take()` step: blank out the
first entry with the given key and return the tree it held. -/
def take_tree : CacheMap → String → CacheMap × Option KDTree
  | [], _ => ([], none)
  | e :: es, name =>
    if e.1 = name then ((e.1, { e.2 with tree := none }) :: es, e.2.tree)
    else
      let res := take_tree es name
      (e :: res.1, res.2)

/-- The `while total_memory_usage > max_memory_usage` loop of manage_memory
(src/src/main.rs:96-120), with the offload_tree calls collected in `writes`.
The fuel argument models termination: every productive iteration evicts one
resident entry, so `trees.length` fuel (supplied by `manage_memory`) is never
exhausted — the theorems below prove the post-state without a fuel-out case.
The `none` take branch mirrors the code doing nothing in that iteration. -/
def manage_memory_loop :
    ℕ → CacheMap → ℕ → ℕ → List (String × KDTree) → CacheMap × List (String × KDTree)
  | 0, trees, _, _, writes => (trees, writes)
  | fuel + 1, trees, total, budget, writes =>
    if total ≤ budget then (trees, writes)
    else
      match find_lru trees with
      | none => (trees, writes)
      | some lru =>
        let res := take_tree trees lru.1
        match res.2 with
        | some t =>
          manage_memory_loop fuel res.1 (total - estimate_memory_usage t) budget
            (writes ++ [(lru.1, t)])
        | none => manage_memory_loop fuel res.1 total budget writes

/-- manage_memory (src/src/main.rs:83-121). -/
def manage_memory (trees : CacheMap) (max_memory_usage : ℕ) :
    CacheMap × List (String × KDTree) :=
  manage_memory_loop trees.length trees (total_memory trees) max_memory_usage []

/-- Replay a list of collected offload_tree calls onto the bin directory. -/
def apply_writes (disk : Disk) (writes : List (String × KDTree)) : Disk :=
  writes.foldl (fun d w => offload_tree d w.1 w.2) disk

/-- Timestamp of the first entry with the given key (0 when absent); used
only to state LRU ordering. -/
def entry_ts : CacheMap → String → ℕ
  | [], _ => 0
  | e :: es, name => if e.1 = name then e.2.last_accessed else entry_ts es name

/-- Responses of the insert handler that matter to the claims; `panicked`
models the process abort raised from insert_recursive. -/
inductive InsertResponse where
  | ok : InsertResponse
  | internalServerError : InsertResponse
  | panicked : InsertResponse
deriving DecidableEq

/-- insert_point handler (src/src/main.rs:123-167).  `now` is `Instant::now()`.
Steps in source order: entry/or_insert placeholder; if not resident, load —
installing a fresh `KDTree::new(point.len())` on ANY load error; touch
last_accessed; insert; save to disk; manage_memory. -/
def insert_point (point : Point) (tree_name : String) (trees : CacheMap)
    (disk : Disk) (max_memory_usage : ℕ) (now : ℕ) :
    InsertResponse × CacheMap × Disk :=
  let trees1 :=
    if (trees.find? (fun e => e.1 = tree_name)).isSome then trees
    else trees ++ [(tree_name, ⟨none, now⟩)]
  let fill := fun (c : KDTreeCache) =>
    match c.tree with
    | some t => some t
    | none =>
      match load_tree disk tree_name with
      | LoadResult.ok loaded => some loaded
      | _ => some (KDTree.new point.len)
  let trees2 := trees1.map (fun e =>
    if e.1 = tree_name then (e.1, (⟨fill e.2, now⟩ : KDTreeCache)) else e)
  match (trees2.find? (fun e => e.1 = tree_name)).bind (fun e => e.2.tree) with
  | none => (InsertResponse.internalServerError, trees2, disk)
  | some tree =>
    match tree.insert point with
    | none => (InsertResponse.panicked, trees2, disk)
    | some tree2 =>
      let trees3 := trees2.map (fun e =>
        if e.1 = tree_name then (e.1, (⟨some tree2, e.2.last_accessed⟩ : KDTreeCache)) else e)
      let disk2 := offload_tree disk tree_name tree2
      let mm := manage_memory trees3 max_memory_usage
      (InsertResponse.ok, mm.1, apply_writes disk2 mm.2)

/-- get_status handler (src/src/main.rs:222-244): for each entry, if the tree
is offloaded try to load it from disk (install on success, ignore failure),
then report (name, record count, residency, seconds since last access).
It never writes last_accessed and never calls manage_memory. -/
def get_status (trees : CacheMap) (disk : Disk) (now : ℕ) :
    CacheMap × List (String × ℕ × Bool × ℕ) :=
  let step := fun (e : String × KDTreeCache) =>
    let c2 :=
      match e.2.tree with
      | some _ => e.2
      | none =>
        match load_tree disk e.1 with
        | LoadResult.ok loaded => { e.2 with tree := some loaded }
        | _ => e.2
    ((e.1, c2),
     (e.1, (match c2.tree with | some t => t.len | none => 0), c2.tree.isSome,
      now - c2.last_accessed))
  ((trees.map step).map Prod.fst, (trees.map step).map Prod.snd)

/-- Concrete points for the C2 counterexample (2-D index). -/
def cexP1 : Point := ⟨[5, 0], "p1"⟩

def cexP2 : Point := ⟨[0, 9], "p2"⟩

def cexP3 : Point := ⟨[5, 1], "p3"⟩

def cexTarget : Point := ⟨[0, 0], "t"⟩

/-- The tree `insert` builds from cexP1, cexP2, cexP3 in order. -/
def cexTree : KDTree :=
  ⟨Tree.node cexP1 (Tree.node cexP2 Tree.leaf Tree.leaf 1)
    (Tree.node cexP3 Tree.leaf Tree.leaf 1) 0, 2⟩

/-- Scenario points from §8 of the spec (witness data). -/
def scenA : Point := ⟨[1, 2], "a"⟩

def scenB : Point := ⟨[3, 4], "b"⟩

def scenC : Point := ⟨[5, 6], "c"⟩

def scenTarget : Point := ⟨[1, 1], "q"⟩

/-- The tree `insert` builds from scenA, scenB, scenC in order. -/
def scenTree : KDTree :=
  ⟨Tree.node scenA Tree.leaf
    (Tree.node scenB Tree.leaf (Tree.node scenC Tree.leaf Tree.leaf 0) 1) 0, 2⟩

/-- A 2-D index holding [1,2] with right child [3,4] (C4 failing input). -/
def c4Tree : KDTree :=
  ⟨Tree.node ⟨[1, 2], "a"⟩ Tree.leaf (Tree.node ⟨[3, 4], "b"⟩ Tree.leaf Tree.leaf 1) 0, 2⟩

/-- A single-node index with a 1-element embedding and empty payload. -/
def smallTree : KDTree := ⟨Tree.node ⟨[0], ""⟩ Tree.leaf Tree.leaf 0, 1⟩

/-- A single-node index with a 1000-element embedding and a large payload. -/
def bigTree : KDTree :=
  ⟨Tree.node ⟨List.replicate 1000 0, String.mk (List.replicate 100 'x')⟩
    Tree.leaf Tree.leaf 0, 1000⟩

/-- A right-going chain of m nodes (used to exhibit unbounded resident memory
after get_status). -/
def chainTree : ℕ → Tree
  | 0 => Tree.leaf
  | m + 1 => Tree.node ⟨[0], ""⟩ Tree.leaf (chainTree m) 0

/-- A bin directory whose only file is structurally invalid (C8 failing
input: corrupt durable data for index "idx"). -/
def c8Disk : Disk := fun n => if n = "idx" then some [Token.str "garbage"] else none

/-- Resident witness trees for the eviction-layer witnesses. -/
def wTreeA : KDTree := ⟨Tree.node ⟨[1], "a"⟩ Tree.leaf Tree.leaf 0, 1⟩

def wTreeB : KDTree := ⟨Tree.node ⟨[2], "b"⟩ Tree.leaf Tree.leaf 0, 1⟩

/-- Two resident entries (88 bytes each), "b" least recently used. -/
def wCache : CacheMap := [("a", ⟨some wTreeA, 5⟩), ("b", ⟨some wTreeB, 3⟩)]

/-- Distance held by the running best, as an extended rational
(⊤ = the initial f64::INFINITY). -/
def cd : Option (Point × ℚ) → WithTop ℚ
  | none => ⊤
  | some pd => (pd.2 : WithTop ℚ)

/-- The running best is either absent or carries the true squared distance of
its point to the target. -/
def ValidBest (target : Point) (c : Option (Point × ℚ)) : Prop :=
  ∀ p dv, c = some (p, dv) → dv = euclidean_distance_sq p.embedding target.embedding

/-- Specification bundle for one nearest_recursive call over the points
`pts`: the result is a valid best, it never worsens the incoming best, it is
at least as close as every point of `pts`, and it is either the incoming best
or a stored point with its distance. -/
def NRStep (target : Point) (pts : List Point)
    (best result : Option (Point × ℚ)) : Prop :=
  ValidBest target result ∧
  cd result ≤ cd best ∧
  (∀ q ∈ pts,
    cd result ≤ (euclidean_distance_sq q.embedding target.embedding : WithTop ℚ)) ∧
  (result = best ∨ ∃ p, p ∈ pts ∧
    result = some (p, euclidean_distance_sq p.embedding target.embedding))

lemma toList_eq_nil_iff (t : Tree) : t.toList = [] ↔ t = Tree.leaf := by
  cases t <;> simp [Tree.toList]

lemma length_toList (t : Tree) : t.toList.length = count_nodes t := by
  induction t with
  | leaf => simp [Tree.toList, count_nodes]
  | node p l r ax ihl ihr => simp [Tree.toList, count_nodes, ihl, ihr]; omega

lemma euclidean_distance_sq_nonneg (a b : List ℚ) : 0 ≤ euclidean_distance_sq a b := by
  apply List.sum_nonneg
  intro x hx
  simp only [List.mem_map] at hx
  obtain ⟨p, _, rfl⟩ := hx
  positivity

lemma sq_coord_le_dist (a b : List ℚ) (i : ℕ) (ha : i < a.length) (hb : i < b.length) :
    (coord a i - coord b i) ^ 2 ≤ euclidean_distance_sq a b := by
  have hz : i < (a.zip b).length := by
    rw [List.length_zip]; exact lt_min ha hb
  have hz2 : i < ((a.zip b).map (fun p => (p.1 - p.2) ^ 2)).length := by
    simpa using hz
  have hco : coord a i = a[i] := by
    simp only [coord]; exact List.getD_eq_getElem a 0 ha
  have hco2 : coord b i = b[i] := by
    simp only [coord]; exact List.getD_eq_getElem b 0 hb
  have hmem : (a[i] - b[i]) ^ 2 ∈ (a.zip b).map (fun p => (p.1 - p.2) ^ 2) := by
    have h := List.getElem_mem hz2
    simpa [List.getElem_map, List.getElem_zip] using h
  rw [hco, hco2]
  refine List.single_le_sum ?_ _ hmem
  intro x hx
  simp only [List.mem_map] at hx
  obtain ⟨p, _, rfl⟩ := hx
  positivity

lemma axis_gap_le (tc cc qa : ℚ)
    (h : (tc < cc ∧ cc ≤ qa) ∨ (cc ≤ tc ∧ qa < cc)) :
    (tc - cc) ^ 2 ≤ (qa - tc) ^ 2 := by
  have key : (qa - tc) ^ 2 - (tc - cc) ^ 2 = (qa - cc) * (qa + cc - 2 * tc) := by ring
  rcases h with ⟨h1, h2⟩ | ⟨h1, h2⟩
  · nlinarith
  · nlinarith

lemma insert_recursive_spec (point : Point) (k : ℕ) (hk : 0 < k)
    (hp : point.embedding.length = k) :
    ∀ (t : Tree) (d : ℕ), Inv t d k → AllLen t k →
      ∃ t2, insert_recursive t point d k = some t2 ∧ Inv t2 d k ∧ AllLen t2 k ∧
        t2.toList.Perm (point :: t.toList) := by
  intro t
  induction t with
  | leaf =>
    intro d _ _
    refine ⟨Tree.node point Tree.leaf Tree.leaf (d % k), rfl, ?_, ?_, ?_⟩
    · exact ⟨by simp [Tree.toList], by simp [Tree.toList], trivial, trivial⟩
    · intro q hq
      simp [Tree.toList] at hq
      subst hq; exact hp
    · simp [Tree.toList]
  | node p l r ax ihl ihr =>
    intro d hinv hlen
    simp only [Inv] at hinv
    obtain ⟨hL, hR, hIl, hIr⟩ := hinv
    have haxis : d % k < k := Nat.mod_lt _ hk
    have hpl : ¬ point.embedding.length ≤ d % k := by omega
    have hpe : p.embedding.length = k := hlen p (by simp [Tree.toList])
    have hple : ¬ p.embedding.length ≤ d % k := by omega
    have hlenl : AllLen l k := fun q hq => hlen q (by simp [Tree.toList]; tauto)
    have hlenr : AllLen r k := fun q hq => hlen q (by simp [Tree.toList]; tauto)
    by_cases hc : coord point.embedding (d % k) < coord p.embedding (d % k)
    · obtain ⟨l2, hl2, hIl2, hAl2, hPl2⟩ := ihl (d + 1) hIl hlenl
      refine ⟨Tree.node p l2 r ax, ?_, ?_, ?_, ?_⟩
      · simp [insert_recursive, hpl, hple, hc, hl2]
      · refine ⟨?_, hR, hIl2, hIr⟩
        intro q hq
        rcases List.mem_cons.mp (hPl2.mem_iff.mp hq) with rfl | hq
        · exact hc
        · exact hL q hq
      · intro q hq
        simp only [Tree.toList, List.mem_cons, List.mem_append] at hq
        rcases hq with rfl | hq | hq
        · exact hpe
        · exact hAl2 q hq
        · exact hlenr q hq
      · exact (List.Perm.cons p (hPl2.append_right r.toList)).trans
          (List.Perm.swap point p (l.toList ++ r.toList))
    · obtain ⟨r2, hr2, hIr2, hAr2, hPr2⟩ := ihr (d + 1) hIr hlenr
      refine ⟨Tree.node p l r2 ax, ?_, ?_, ?_, ?_⟩
      · simp [insert_recursive, hpl, hple, hc, hr2]
      · refine ⟨hL, ?_, hIl, hIr2⟩
        intro q hq
        rcases List.mem_cons.mp (hPr2.mem_iff.mp hq) with rfl | hq
        · exact hc
        · exact hR q hq
      · intro q hq
        simp only [Tree.toList, List.mem_cons, List.mem_append] at hq
        rcases hq with rfl | hq | hq
        · exact hpe
        · exact hlenl q hq
        · exact hAr2 q hq
      · exact (List.Perm.cons p ((List.Perm.append_left l.toList hPr2).trans
          List.perm_middle)).trans (List.Perm.swap point p (l.toList ++ r.toList))

lemma insert_spec (t : KDTree) (point : Point) (k : ℕ) (htk : t.k = k) (hk : 0 < k)
    (hp : point.embedding.length = k)
    (hinv : Inv t.root 0 k) (hlen : AllLen t.root k) :
    ∃ t2, t.insert point = some t2 ∧ t2.k = k ∧ Inv t2.root 0 k ∧
      AllLen t2.root k ∧ t2.root.toList.Perm (point :: t.root.toList) := by
  subst htk
  obtain ⟨rt, hrt, hi, ha, hpm⟩ := insert_recursive_spec point t.k hk hp t.root 0 hinv hlen
  exact ⟨⟨rt, t.k⟩, by simp [KDTree.insert, hrt], rfl, hi, ha, hpm⟩

lemma insertAll_spec (k : ℕ) (hk : 0 < k) :
    ∀ (pts : List Point) (t : KDTree), t.k = k → Inv t.root 0 k → AllLen t.root k →
      (∀ p ∈ pts, p.embedding.length = k) →
      ∃ t2, insertAll t pts = some t2 ∧ t2.k = k ∧ Inv t2.root 0 k ∧ AllLen t2.root k ∧
        t2.root.toList.Perm (pts ++ t.root.toList) := by
  intro pts
  induction pts with
  | nil =>
    intro t htk hi hl _
    exact ⟨t, rfl, htk, hi, hl, by simp⟩
  | cons p ps ih =>
    intro t htk hi hl hall
    obtain ⟨t1, h1, h1k, h1i, h1l, h1p⟩ := insert_spec t p k htk hk
      (hall p (by simp)) hi hl
    obtain ⟨t2, h2, h2k, h2i, h2l, h2p⟩ := ih t1 h1k h1i h1l
      (fun q hq => hall q (by simp [hq]))
    refine ⟨t2, ?_, h2k, h2i, h2l, ?_⟩
    · simpa [insertAll, h1] using h2
    · exact h2p.trans ((List.Perm.append_left ps h1p).trans List.perm_middle)

lemma distLtBest_iff (dv : ℚ) (c : Option (Point × ℚ)) :
    distLtBest dv c = true ↔ (dv : WithTop ℚ) < cd c := by
  cases c with
  | none => simp [distLtBest, cd]
  | some pd =>
    obtain ⟨p, bd⟩ := pd
    simp [distLtBest, cd, WithTop.coe_lt_coe]

lemma cd_update (p : Point) (dv : ℚ) (c : Option (Point × ℚ)) :
    cd (if distLtBest dv c then some (p, dv) else c) = min (cd c) (dv : WithTop ℚ) := by
  by_cases h : distLtBest dv c = true
  · rw [if_pos h, min_eq_right (le_of_lt ((distLtBest_iff dv c).mp h))]
    rfl
  · rw [if_neg h, min_eq_left (le_of_not_lt (fun hlt => h ((distLtBest_iff dv c).mpr hlt)))]

lemma NRStep.trans (target : Point) {pts1 pts2 : List Point}
    {best mid result : Option (Point × ℚ)}
    (h1 : NRStep target pts1 best mid) (h2 : NRStep target pts2 mid result) :
    NRStep target (pts1 ++ pts2) best result := by
  obtain ⟨v1, m1, c1, d1⟩ := h1
  obtain ⟨v2, m2, c2, d2⟩ := h2
  refine ⟨v2, m2.trans m1, ?_, ?_⟩
  · intro q hq
    rcases List.mem_append.mp hq with hq | hq
    · exact le_trans m2 (c1 q hq)
    · exact c2 q hq
  · rcases d2 with rfl | ⟨p, hp, hp2⟩
    · rcases d1 with rfl | ⟨p, hp, hp2⟩
      · exact Or.inl rfl
      · exact Or.inr ⟨p, List.mem_append.mpr (Or.inl hp), hp2⟩
    · exact Or.inr ⟨p, List.mem_append.mpr (Or.inr hp), hp2⟩

lemma NRStep.prune (target : Point) {pts other : List Point}
    {best result : Option (Point × ℚ)}
    (h : NRStep target pts best result)
    (hle : ∀ q ∈ other,
      cd result ≤ (euclidean_distance_sq q.embedding target.embedding : WithTop ℚ)) :
    NRStep target (pts ++ other) best result := by
  obtain ⟨v1, m1, c1, d1⟩ := h
  refine ⟨v1, m1, ?_, ?_⟩
  · intro q hq
    rcases List.mem_append.mp hq with hq | hq
    · exact c1 q hq
    · exact hle q hq
  · rcases d1 with rfl | ⟨p, hp, hp2⟩
    · exact Or.inl rfl
    · exact Or.inr ⟨p, List.mem_append.mpr (Or.inl hp), hp2⟩

lemma NRStep.mem_congr (target : Point) {pts pts2 : List Point}
    {best result : Option (Point × ℚ)}
    (hmem : ∀ x, x ∈ pts ↔ x ∈ pts2)
    (h : NRStep target pts best result) : NRStep target pts2 best result := by
  obtain ⟨v1, m1, c1, d1⟩ := h
  refine ⟨v1, m1, fun q hq => c1 q ((hmem q).mpr hq), ?_⟩
  rcases d1 with rfl | ⟨p, hp, hp2⟩
  · exact Or.inl rfl
  · exact Or.inr ⟨p, (hmem p).mp hp, hp2⟩

lemma NRStep.update (target p : Point) (best : Option (Point × ℚ))
    (hvb : ValidBest target best) :
    NRStep target [p] best
      (if distLtBest (euclidean_distance_sq p.embedding target.embedding) best
       then some (p, euclidean_distance_sq p.embedding target.embedding) else best) := by
  refine ⟨?_, ?_, ?_, ?_⟩
  · by_cases h : distLtBest (euclidean_distance_sq p.embedding target.embedding) best = true
    · rw [if_pos h]
      intro q dv hq
      obtain ⟨rfl, rfl⟩ := Prod.mk.injEq .. ▸ Option.some.injEq .. ▸ hq
      rfl
    · rw [if_neg h]; exact hvb
  · rw [cd_update]; exact min_le_left _ _
  · intro q hq
    rcases List.mem_singleton.mp hq with rfl
    rw [cd_update]; exact min_le_right _ _
  · by_cases h : distLtBest (euclidean_distance_sq p.embedding target.embedding) best = true
    · exact Or.inr ⟨p, List.mem_singleton.mpr rfl, by rw [if_pos h]⟩
    · exact Or.inl (by rw [if_neg h])

lemma nearest_recursive_spec (target : Point) (k : ℕ) (hk : 0 < k)
    (htl : target.embedding.length = k) :
    ∀ (t : Tree) (d : ℕ) (best : Option (Point × ℚ)),
      Inv t d k → AllLen t k → ValidBest target best →
      NRStep target t.toList best (nearest_recursive t target d k best) := by
  intro t
  induction t with
  | leaf =>
    intro d best _ _ hvb
    exact ⟨hvb, le_refl _, by simp [Tree.toList], Or.inl rfl⟩
  | node p l r ax ihl ihr =>
    intro d best hinv hlen hvb
    simp only [Inv] at hinv
    obtain ⟨hL, hR, hIl, hIr⟩ := hinv
    have haxis : d % k < k := Nat.mod_lt _ hk
    have hpe : p.embedding.length = k := hlen p (by simp [Tree.toList])
    have hlenl : AllLen l k := fun q hq => hlen q (by simp [Tree.toList]; tauto)
    have hlenr : AllLen r k := fun q hq => hlen q (by simp [Tree.toList]; tauto)
    have hstep1 := NRStep.update target p best hvb
    have hvb1 : ValidBest target
        (if distLtBest (euclidean_distance_sq p.embedding target.embedding) best
         then some (p, euclidean_distance_sq p.embedding target.embedding) else best) :=
      hstep1.1
    by_cases hc : coord target.embedding (d % k) < coord p.embedding (d % k)
    · -- same side is the left subtree, opposite is the right subtree
      have hstep2 := ihl (d + 1) _ hIl hlenl hvb1
      have hvb2 := hstep2.1
      have hside : ∀ q ∈ r.toList,
          ((coord target.embedding (d % k) - coord p.embedding (d % k)) ^ 2 : ℚ)
            ≤ euclidean_distance_sq q.embedding target.embedding := by
        intro q hq
        have h1 := axis_gap_le (coord target.embedding (d % k))
          (coord p.embedding (d % k)) (coord q.embedding (d % k))
          (Or.inl ⟨hc, not_lt.mp (hR q hq)⟩)
        have h2 := sq_coord_le_dist q.embedding target.embedding (d % k)
          (by rw [hlenr q hq]; exact haxis) (by rw [htl]; exact haxis)
        linarith
      have hgoal : NRStep target ([p] ++ l.toList ++ r.toList) best
          (nearest_recursive (Tree.node p l r ax) target d k best) := by
        simp only [nearest_recursive, if_pos hc]
        by_cases hpr : distLtBest
            ((coord target.embedding (d % k) - coord p.embedding (d % k)) ^ 2)
            (nearest_recursive l target (d + 1) k
              (if distLtBest (euclidean_distance_sq p.embedding target.embedding) best
               then some (p, euclidean_distance_sq p.embedding target.embedding)
               else best)) = true
        · rw [if_pos hpr]
          exact (hstep1.trans target hstep2).trans target (ihr (d + 1) _ hIr hlenr hvb2)
        · rw [if_neg hpr]
          refine (hstep1.trans target hstep2).prune target ?_
          intro q hq
          have hnot := le_of_not_lt (fun hlt => hpr ((distLtBest_iff _ _).mpr hlt))
          exact le_trans hnot (WithTop.coe_le_coe.mpr (hside q hq))
      exact hgoal.mem_congr target (by intro x; simp [Tree.toList])
    · -- same side is the right subtree, opposite is the left subtree
      have hstep2 := ihr (d + 1) _ hIr hlenr hvb1
      have hvb2 := hstep2.1
      have hside : ∀ q ∈ l.toList,
          ((coord target.embedding (d % k) - coord p.embedding (d % k)) ^ 2 : ℚ)
            ≤ euclidean_distance_sq q.embedding target.embedding := by
        intro q hq
        have h1 := axis_gap_le (coord target.embedding (d % k))
          (coord p.embedding (d % k)) (coord q.embedding (d % k))
          (Or.inr ⟨not_lt.mp hc, hL q hq⟩)
        have h2 := sq_coord_le_dist q.embedding target.embedding (d % k)
          (by rw [hlenl q hq]; exact haxis) (by rw [htl]; exact haxis)
        linarith
      have hgoal : NRStep target ([p] ++ r.toList ++ l.toList) best
          (nearest_recursive (Tree.node p l r ax) target d k best) := by
        simp only [nearest_recursive, if_neg hc]
        by_cases hpr : distLtBest
            ((coord target.embedding (d % k) - coord p.embedding (d % k)) ^ 2)
            (nearest_recursive r target (d + 1) k
              (if distLtBest (euclidean_distance_sq p.embedding target.embedding) best
               then some (p, euclidean_distance_sq p.embedding target.embedding)
               else best)) = true
        · rw [if_pos hpr]
          exact (hstep1.trans target hstep2).trans target (ihl (d + 1) _ hIl hlenl hvb2)
        · rw [if_neg hpr]
          refine (hstep1.trans target hstep2).prune target ?_
          intro q hq
          have hnot := le_of_not_lt (fun hlt => hpr ((distLtBest_iff _ _).mpr hlt))
          exact le_trans hnot (WithTop.coe_le_coe.mpr (hside q hq))
      exact hgoal.mem_congr target (by intro x; simp [Tree.toList]; tauto)

/-- C1: for every set of points (of the index's dimensionality k) inserted
into a fresh k-dimensional index and every target of that dimensionality,
nearest_neighbor returns a stored point whose Euclidean distance to the
target is minimal among all inserted points (stated on squared distances,
which order exactly as the Euclidean ones), and returns nothing exactly when
the index is empty. -/
theorem C1_nearest_neighbor_minimal (k : ℕ) (pts : List Point) (target : Point)
    (t : KDTree) (hk : 0 < k) (hpts : ∀ p ∈ pts, p.embedding.length = k)
    (htarget : target.embedding.length = k)
    (hbuild : insertAll (KDTree.new k) pts = some t) :
    (t.nearest_neighbor target = none ↔ pts = []) ∧
    ∀ p, t.nearest_neighbor target = some p →
      p ∈ pts ∧ ∀ q ∈ pts,
        euclidean_distance_sq p.embedding target.embedding ≤
          euclidean_distance_sq q.embedding target.embedding := by
  obtain ⟨t2, h2, h2k, h2i, h2l, h2p⟩ := insertAll_spec k hk pts (KDTree.new k) rfl
    trivial (fun q hq => absurd hq (by simp [KDTree.new, Tree.toList])) hpts
  rw [hbuild] at h2
  injection h2 with h2
  subst h2
  simp only [KDTree.new, Tree.toList, List.append_nil] at h2p
  have hnn : t.nearest_neighbor target
      = (nearest_recursive t.root target 0 k none).map Prod.fst := by
    simp [KDTree.nearest_neighbor, h2k]
  obtain ⟨hv, _, hc, hd⟩ := nearest_recursive_spec target k hk htarget t.root 0 none
    h2i h2l (fun p dv h => by cases h)
  constructor
  · constructor
    · intro hnone
      rw [hnn, Option.map_eq_none'] at hnone
      by_contra hne
      obtain ⟨q, hq⟩ := List.exists_mem_of_ne_nil pts hne
      have hq2 : q ∈ t.root.toList := h2p.mem_iff.mpr hq
      have hcq := hc q hq2
      rw [hnone] at hcq
      simp [cd] at hcq
    · intro hpts0
      subst hpts0
      have hnil : t.root.toList = [] := List.Perm.eq_nil h2p
      rw [toList_eq_nil_iff] at hnil
      rw [hnn, hnil]
      rfl
  · intro p hp
    rw [hnn] at hp
    obtain ⟨pr, hpr, hfst⟩ := Option.map_eq_some'.mp hp
    rcases hd with hbest | ⟨p2, hp2mem, hp2eq⟩
    · rw [hbest] at hpr; cases hpr
    · rw [hp2eq] at hpr
      injection hpr with hpr
      subst hpr
      simp only at hfst
      subst hfst
      refine ⟨h2p.mem_iff.mp hp2mem, ?_⟩
      intro q hq
      have hcq := hc q (h2p.mem_iff.mpr hq)
      rw [hp2eq] at hcq
      simpa [cd, WithTop.coe_le_coe] using hcq

/-- Witness for C1 at the §8 scenario: a 2-D index built from [1,2], [3,4],
[5,6] and target [1,1]. -/
theorem C1_nearest_neighbor_minimal_witness :
    0 < 2 ∧ (∀ p ∈ [scenA, scenB, scenC], p.embedding.length = 2) ∧
    scenTarget.embedding.length = 2 ∧
    insertAll (KDTree.new 2) [scenA, scenB, scenC] = some scenTree ∧
    ((scenTree.nearest_neighbor scenTarget = none ↔ ([scenA, scenB, scenC] : List Point) = []) ∧
     ∀ p, scenTree.nearest_neighbor scenTarget = some p →
       p ∈ [scenA, scenB, scenC] ∧ ∀ q ∈ [scenA, scenB, scenC],
         euclidean_distance_sq p.embedding scenTarget.embedding ≤
           euclidean_distance_sq q.embedding scenTarget.embedding) :=
  ⟨by decide, by decide, by decide, by decide,
   C1_nearest_neighbor_minimal 2 [scenA, scenB, scenC] scenTarget scenTree
     (by decide) (by decide) (by decide) (by decide)⟩

lemma fold_min_aux (xs : List ℚ) : ∀ m : ℚ,
    xs.foldl fold_min_step (some m) = some (xs.foldl min m) := by
  induction xs with
  | nil => intro m; rfl
  | cons x xs ih => intro m; simpa [fold_min_step] using ih (min m x)

lemma fold_min_cons (x : ℚ) (xs : List ℚ) :
    fold_min (x :: xs) = some (xs.foldl min x) := by
  simp only [fold_min, List.foldl_cons, fold_min_step]
  exact fold_min_aux xs x

lemma foldl_min_le (xs : List ℚ) : ∀ m : ℚ,
    xs.foldl min m ≤ m ∧ ∀ y ∈ xs, xs.foldl min m ≤ y := by
  induction xs with
  | nil => intro m; exact ⟨le_refl m, by simp⟩
  | cons x xs ih =>
    intro m
    simp only [List.foldl_cons]
    obtain ⟨h1, h2⟩ := ih (min m x)
    refine ⟨le_trans h1 (min_le_left m x), ?_⟩
    intro y hy
    rcases List.mem_cons.mp hy with rfl | hy
    · exact le_trans h1 (min_le_right m y)
    · exact h2 y hy

lemma foldl_min_mem (xs : List ℚ) : ∀ m : ℚ,
    xs.foldl min m = m ∨ xs.foldl min m ∈ xs := by
  induction xs with
  | nil => intro m; exact Or.inl rfl
  | cons x xs ih =>
    intro m
    simp only [List.foldl_cons]
    rcases ih (min m x) with h | h
    · rw [h]
      rcases le_total m x with hmx | hmx
      · rw [min_eq_left hmx]; exact Or.inl rfl
      · rw [min_eq_right hmx]; exact Or.inr (List.mem_cons_self x xs)
    · exact Or.inr (List.mem_cons_of_mem x h)

lemma fold_min_spec (l : List ℚ) (m : ℚ) (h : fold_min l = some m) :
    m ∈ l ∧ ∀ y ∈ l, m ≤ y := by
  cases l with
  | nil => cases h
  | cons x xs =>
    rw [fold_min_cons] at h
    injection h with h
    subst h
    constructor
    · rcases foldl_min_mem xs x with h | h
      · rw [h]; exact List.mem_cons_self x xs
      · exact List.mem_cons_of_mem x h
    · intro y hy
      rcases List.mem_cons.mp hy with h2 | h2
      · rw [h2]; exact (foldl_min_le xs x).1
      · exact (foldl_min_le xs x).2 y h2

lemma ltFoldMin_false (dv : ℚ) (lst : List (ℚ × Point)) (h : ¬ ltFoldMin dv lst = true) :
    ∃ m, fold_min (lst.map Prod.fst) = some m ∧ m ≤ dv := by
  unfold ltFoldMin at h
  rcases hm : fold_min (lst.map Prod.fst) with _ | m
  · rw [hm] at h; simp at h
  · rw [hm] at h
    simp only [decide_eq_true_eq] at h
    exact ⟨m, rfl, le_of_not_lt h⟩

lemma nearest_recursive_n_extends (target : Point) (k : ℕ) :
    ∀ (t : Tree) (d : ℕ) (results : List (ℚ × Point)),
      ∃ new, nearest_recursive_n t target d k results = results ++ new := by
  intro t
  induction t with
  | leaf => intro d results; exact ⟨[], by simp [nearest_recursive_n]⟩
  | node p l r ax ihl ihr =>
    intro d results
    simp only [nearest_recursive_n]
    by_cases hc : coord target.embedding (d % k) < coord p.embedding (d % k)
    · rw [if_pos hc]
      obtain ⟨n1, h1⟩ := ihl (d + 1)
        (results ++ [(euclidean_distance_sq p.embedding target.embedding, p)])
      rw [h1]
      split
      · obtain ⟨n2, h2⟩ := ihr (d + 1)
          ((results ++ [(euclidean_distance_sq p.embedding target.embedding, p)]) ++ n1)
        rw [h2]
        exact ⟨[(euclidean_distance_sq p.embedding target.embedding, p)] ++ n1 ++ n2,
          by simp⟩
      · exact ⟨[(euclidean_distance_sq p.embedding target.embedding, p)] ++ n1, by simp⟩
    · rw [if_neg hc]
      obtain ⟨n1, h1⟩ := ihr (d + 1)
        (results ++ [(euclidean_distance_sq p.embedding target.embedding, p)])
      rw [h1]
      split
      · obtain ⟨n2, h2⟩ := ihl (d + 1)
          ((results ++ [(euclidean_distance_sq p.embedding target.embedding, p)]) ++ n1)
        rw [h2]
        exact ⟨[(euclidean_distance_sq p.embedding target.embedding, p)] ++ n1 ++ n2,
          by simp⟩
      · exact ⟨[(euclidean_distance_sq p.embedding target.embedding, p)] ++ n1, by simp⟩

lemma nearest_recursive_n_node_ne_nil (target : Point) (k d : ℕ) (p : Point)
    (l r : Tree) (ax : ℕ) (results : List (ℚ × Point)) :
    nearest_recursive_n (Tree.node p l r ax) target d k results ≠ [] := by
  simp only [nearest_recursive_n]
  by_cases hc : coord target.embedding (d % k) < coord p.embedding (d % k)
  · rw [if_pos hc]
    obtain ⟨n1, h1⟩ := nearest_recursive_n_extends target k l (d + 1)
      (results ++ [(euclidean_distance_sq p.embedding target.embedding, p)])
    rw [h1]
    split
    · obtain ⟨n2, h2⟩ := nearest_recursive_n_extends target k r (d + 1)
        ((results ++ [(euclidean_distance_sq p.embedding target.embedding, p)]) ++ n1)
      rw [h2]; simp
    · simp
  · rw [if_neg hc]
    obtain ⟨n1, h1⟩ := nearest_recursive_n_extends target k r (d + 1)
      (results ++ [(euclidean_distance_sq p.embedding target.embedding, p)])
    rw [h1]
    split
    · obtain ⟨n2, h2⟩ := nearest_recursive_n_extends target k l (d + 1)
        ((results ++ [(euclidean_distance_sq p.embedding target.embedding, p)]) ++ n1)
      rw [h2]; simp
    · simp

lemma nearest_recursive_n_spec (target : Point) (k : ℕ) (hk : 0 < k)
    (htl : target.embedding.length = k) :
    ∀ (t : Tree) (d : ℕ) (results : List (ℚ × Point)),
      Inv t d k → AllLen t k →
      (∃ new, nearest_recursive_n t target d k results = results ++ new ∧
        new.length ≤ t.toList.length ∧
        ∀ x ∈ new, x.2 ∈ t.toList ∧
          x.1 = euclidean_distance_sq x.2.embedding target.embedding) ∧
      ∀ q ∈ t.toList, ∃ x ∈ nearest_recursive_n t target d k results,
        x.1 ≤ euclidean_distance_sq q.embedding target.embedding := by
  intro t
  induction t with
  | leaf =>
    intro d results _ _
    exact ⟨⟨[], by simp [nearest_recursive_n], by simp [Tree.toList], by simp⟩,
      by simp [Tree.toList]⟩
  | node p l r ax ihl ihr =>
    intro d results hinv hlen
    simp only [Inv] at hinv
    obtain ⟨hL, hR, hIl, hIr⟩ := hinv
    have haxis : d % k < k := Nat.mod_lt _ hk
    have hlenl : AllLen l k := fun q hq => hlen q (by simp [Tree.toList]; tauto)
    have hlenr : AllLen r k := fun q hq => hlen q (by simp [Tree.toList]; tauto)
    by_cases hc : coord target.embedding (d % k) < coord p.embedding (d % k)
    · have hside : ∀ q ∈ r.toList,
          ((coord target.embedding (d % k) - coord p.embedding (d % k)) ^ 2 : ℚ)
            ≤ euclidean_distance_sq q.embedding target.embedding := by
        intro q hq
        have h1 := axis_gap_le (coord target.embedding (d % k))
          (coord p.embedding (d % k)) (coord q.embedding (d % k))
          (Or.inl ⟨hc, not_lt.mp (hR q hq)⟩)
        have h2 := sq_coord_le_dist q.embedding target.embedding (d % k)
          (by rw [hlenr q hq]; exact haxis) (by rw [htl]; exact haxis)
        linarith
      obtain ⟨⟨new1, heq1, hlen1, hprov1⟩, hcov1⟩ := ihl (d + 1)
        (results ++ [(euclidean_distance_sq p.embedding target.embedding, p)]) hIl hlenl
      simp only [nearest_recursive_n, if_pos hc]
      rw [heq1]
      by_cases hpr : ltFoldMin
          ((coord target.embedding (d % k) - coord p.embedding (d % k)) ^ 2)
          ((results ++ [(euclidean_distance_sq p.embedding target.embedding, p)]) ++ new1)
          = true
      · rw [if_pos hpr]
        obtain ⟨⟨new2, heq2, hlen2, hprov2⟩, hcov2⟩ := ihr (d + 1)
          ((results ++ [(euclidean_distance_sq p.embedding target.embedding, p)]) ++ new1)
          hIr hlenr
        rw [heq2]
        constructor
        · refine ⟨[(euclidean_distance_sq p.embedding target.embedding, p)] ++ new1 ++ new2,
            by simp, ?_, ?_⟩
          · simp [Tree.toList]
            omega
          · intro x hx
            simp only [List.append_assoc, List.mem_append, List.mem_singleton] at hx
            rcases hx with hx | hx | hx
            · subst hx
              exact ⟨by simp [Tree.toList], rfl⟩
            · obtain ⟨hmem, hval⟩ := hprov1 x hx
              exact ⟨by simp [Tree.toList]; tauto, hval⟩
            · obtain ⟨hmem, hval⟩ := hprov2 x hx
              exact ⟨by simp [Tree.toList]; tauto, hval⟩
        · intro q hq
          simp only [Tree.toList, List.mem_cons, List.mem_append] at hq
          rcases hq with rfl | hq | hq
          · exact ⟨(euclidean_distance_sq q.embedding target.embedding, q), by simp,
              le_refl _⟩
          · obtain ⟨x, hxmem, hxle⟩ := hcov1 q hq
            rw [heq1] at hxmem
            exact ⟨x, by simp only [List.mem_append] at hxmem ⊢; tauto, hxle⟩
          · obtain ⟨x, hxmem, hxle⟩ := hcov2 q hq
            rw [heq2] at hxmem
            exact ⟨x, hxmem, hxle⟩
      · rw [if_neg hpr]
        obtain ⟨m, hm, hmle⟩ := ltFoldMin_false _ _ hpr
        obtain ⟨hm_mem, _⟩ := fold_min_spec _ _ hm
        obtain ⟨x0, hx0mem, hx0⟩ := List.mem_map.mp hm_mem
        constructor
        · refine ⟨[(euclidean_distance_sq p.embedding target.embedding, p)] ++ new1,
            by simp, ?_, ?_⟩
          · simp [Tree.toList]
            omega
          · intro x hx
            simp only [List.mem_append, List.mem_singleton] at hx
            rcases hx with hx | hx
            · subst hx
              exact ⟨by simp [Tree.toList], rfl⟩
            · obtain ⟨hmem, hval⟩ := hprov1 x hx
              exact ⟨by simp [Tree.toList]; tauto, hval⟩
        · intro q hq
          simp only [Tree.toList, List.mem_cons, List.mem_append] at hq
          rcases hq with rfl | hq | hq
          · exact ⟨(euclidean_distance_sq q.embedding target.embedding, q), by simp,
              le_refl _⟩
          · obtain ⟨x, hxmem, hxle⟩ := hcov1 q hq
            rw [heq1] at hxmem
            exact ⟨x, hxmem, hxle⟩
          · refine ⟨x0, hx0mem, ?_⟩
            rw [hx0]
            exact le_trans hmle (hside q hq)
    · have hside : ∀ q ∈ l.toList,
          ((coord target.embedding (d % k) - coord p.embedding (d % k)) ^ 2 : ℚ)
            ≤ euclidean_distance_sq q.embedding target.embedding := by
        intro q hq
        have h1 := axis_gap_le (coord target.embedding (d % k))
          (coord p.embedding (d % k)) (coord q.embedding (d % k))
          (Or.inr ⟨not_lt.mp hc, hL q hq⟩)
        have h2 := sq_coord_le_dist q.embedding target.embedding (d % k)
          (by rw [hlenl q hq]; exact haxis) (by rw [htl]; exact haxis)
        linarith
      obtain ⟨⟨new1, heq1, hlen1, hprov1⟩, hcov1⟩ := ihr (d + 1)
        (results ++ [(euclidean_distance_sq p.embedding target.embedding, p)]) hIr hlenr
      simp only [nearest_recursive_n, if_neg hc]
      rw [heq1]
      by_cases hpr : ltFoldMin
          ((coord target.embedding (d % k) - coord p.embedding (d % k)) ^ 2)
          ((results ++ [(euclidean_distance_sq p.embedding target.embedding, p)]) ++ new1)
          = true
      · rw [if_pos hpr]
        obtain ⟨⟨new2, heq2, hlen2, hprov2⟩, hcov2⟩ := ihl (d + 1)
          ((results ++ [(euclidean_distance_sq p.embedding target.embedding, p)]) ++ new1)
          hIl hlenl
        rw [heq2]
        constructor
        · refine ⟨[(euclidean_distance_sq p.embedding target.embedding, p)] ++ new1 ++ new2,
            by simp, ?_, ?_⟩
          · simp [Tree.toList]
            omega
          · intro x hx
            simp only [List.append_assoc, List.mem_append, List.mem_singleton] at hx
            rcases hx with hx | hx | hx
            · subst hx
              exact ⟨by simp [Tree.toList], rfl⟩
            · obtain ⟨hmem, hval⟩ := hprov1 x hx
              exact ⟨by simp [Tree.toList]; tauto, hval⟩
            · obtain ⟨hmem, hval⟩ := hprov2 x hx
              exact ⟨by simp [Tree.toList]; tauto, hval⟩
        · intro q hq
          simp only [Tree.toList, List.mem_cons, List.mem_append] at hq
          rcases hq with rfl | hq | hq
          · exact ⟨(euclidean_distance_sq q.embedding target.embedding, q), by simp,
              le_refl _⟩
          · obtain ⟨x, hxmem, hxle⟩ := hcov2 q hq
            rw [heq2] at hxmem
            exact ⟨x, hxmem, hxle⟩
          · obtain ⟨x, hxmem, hxle⟩ := hcov1 q hq
            rw [heq1] at hxmem
            exact ⟨x, by simp only [List.mem_append] at hxmem ⊢; tauto, hxle⟩
      · rw [if_neg hpr]
        obtain ⟨m, hm, hmle⟩ := ltFoldMin_false _ _ hpr
        obtain ⟨hm_mem, _⟩ := fold_min_spec _ _ hm
        obtain ⟨x0, hx0mem, hx0⟩ := List.mem_map.mp hm_mem
        constructor
        · refine ⟨[(euclidean_distance_sq p.embedding target.embedding, p)] ++ new1,
            by simp, ?_, ?_⟩
          · simp [Tree.toList]
            omega
          · intro x hx
            simp only [List.mem_append, List.mem_singleton] at hx
            rcases hx with hx | hx
            · subst hx
              exact ⟨by simp [Tree.toList], rfl⟩
            · obtain ⟨hmem, hval⟩ := hprov1 x hx
              exact ⟨by simp [Tree.toList]; tauto, hval⟩
        · intro q hq
          simp only [Tree.toList, List.mem_cons, List.mem_append] at hq
          rcases hq with rfl | hq | hq
          · exact ⟨(euclidean_distance_sq q.embedding target.embedding, q), by simp,
              le_refl _⟩
          · refine ⟨x0, hx0mem, ?_⟩
            rw [hx0]
            exact le_trans hmle (hside q hq)
          · obtain ⟨x, hxmem, hxle⟩ := hcov1 q hq
            rw [heq1] at hxmem
            exact ⟨x, hxmem, hxle⟩

lemma insertSorted_perm (x : ℚ × Point) (l : List (ℚ × Point)) :
    (insertSorted x l).Perm (x :: l) := by
  induction l with
  | nil => exact List.Perm.refl _
  | cons y ys ih =>
    simp only [insertSorted]
    split
    · exact (ih.cons y).trans (List.Perm.swap x y ys)
    · exact List.Perm.refl _

lemma insertSorted_sorted (x : ℚ × Point) (l : List (ℚ × Point))
    (h : List.Sorted (fun a b => a.1 ≤ b.1) l) :
    List.Sorted (fun a b => a.1 ≤ b.1) (insertSorted x l) := by
  induction l with
  | nil => simp [insertSorted]
  | cons y ys ih =>
    obtain ⟨hy, hys⟩ := List.sorted_cons.mp h
    simp only [insertSorted]
    by_cases hxy : y.1 ≤ x.1
    · rw [if_pos hxy]
      refine List.sorted_cons.mpr ⟨?_, ih hys⟩
      intro b hb
      rcases List.mem_cons.mp ((insertSorted_perm x ys).mem_iff.mp hb) with h2 | h2
      · rw [h2]; exact hxy
      · exact hy b h2
    · rw [if_neg hxy]
      refine List.sorted_cons.mpr ⟨?_, h⟩
      intro b hb
      rcases List.mem_cons.mp hb with h2 | h2
      · rw [h2]; exact le_of_lt (lt_of_not_le hxy)
      · exact le_trans (le_of_lt (lt_of_not_le hxy)) (hy b h2)

lemma sortByDist_perm_aux : ∀ (l acc : List (ℚ × Point)),
    (l.foldl (fun acc x => insertSorted x acc) acc).Perm (acc ++ l) := by
  intro l
  induction l with
  | nil => intro acc; simp
  | cons x xs ih =>
    intro acc
    simp only [List.foldl_cons]
    refine (ih (insertSorted x acc)).trans ?_
    refine (((insertSorted_perm x acc).append_right xs).trans ?_)
    exact List.perm_middle.symm

lemma sortByDist_perm (l : List (ℚ × Point)) : (sortByDist l).Perm l := by
  simpa using sortByDist_perm_aux l []

lemma sortByDist_sorted_aux : ∀ (l acc : List (ℚ × Point)),
    List.Sorted (fun a b => a.1 ≤ b.1) acc →
    List.Sorted (fun a b => a.1 ≤ b.1)
      (l.foldl (fun acc x => insertSorted x acc) acc) := by
  intro l
  induction l with
  | nil => intro acc h; simpa using h
  | cons x xs ih =>
    intro acc h
    simp only [List.foldl_cons]
    exact ih (insertSorted x acc) (insertSorted_sorted x acc h)

lemma sortByDist_sorted (l : List (ℚ × Point)) :
    List.Sorted (fun a b => a.1 ≤ b.1) (sortByDist l) :=
  sortByDist_sorted_aux l [] (by simp)

/-- C9: nearest_neighbors_topn returns nothing exactly when the truncated
candidate list is empty — with n = 0 it returns nothing even on a non-empty
index, and it never returns Some of an empty list. -/
theorem C9_topn_none_iff (k : ℕ) (pts : List Point) (target : Point)
    (t : KDTree) (n : ℕ) (hk : 0 < k) (hpts : ∀ p ∈ pts, p.embedding.length = k)
    (htarget : target.embedding.length = k)
    (hbuild : insertAll (KDTree.new k) pts = some t) :
    (t.nearest_neighbors_topn target n = none ↔ (n = 0 ∨ pts = [])) ∧
    ∀ lres, t.nearest_neighbors_topn target n = some lres → lres ≠ [] := by
  obtain ⟨t2, h2, h2k, h2i, h2l, h2p⟩ := insertAll_spec k hk pts (KDTree.new k) rfl
    trivial (fun q hq => absurd hq (by simp [KDTree.new, Tree.toList])) hpts
  rw [hbuild] at h2
  injection h2 with h2
  subst h2
  simp only [KDTree.new, Tree.toList, List.append_nil] at h2p
  have hres_nil : nearest_recursive_n t.root target 0 t.k [] = [] ↔ pts = [] := by
    constructor
    · intro h
      cases hroot : t.root with
      | leaf =>
        have htl : t.root.toList = [] := by rw [hroot]; rfl
        have hp2 : pts.Perm [] := by rw [← htl]; exact h2p.symm
        exact hp2.eq_nil
      | node p l r ax =>
        rw [hroot] at h
        exact absurd h (nearest_recursive_n_node_ne_nil target t.k 0 p l r ax [])
    · intro h
      subst h
      have hnil : t.root.toList = [] := List.Perm.eq_nil h2p
      rw [toList_eq_nil_iff] at hnil
      rw [hnil]
      rfl
  have hkey : (((sortByDist (nearest_recursive_n t.root target 0 t.k [])).take n).map
      Prod.snd) = [] ↔ (n = 0 ∨ pts = []) := by
    rw [List.map_eq_nil_iff, List.take_eq_nil_iff]
    constructor
    · rintro (he | he)
      · exact Or.inl he
      · right
        rw [← hres_nil]
        have hp2 := sortByDist_perm (nearest_recursive_n t.root target 0 t.k [])
        rw [he] at hp2
        exact hp2.symm.eq_nil
    · rintro (he | he)
      · exact Or.inl he
      · right
        rw [hres_nil.mpr he]
        rfl
  constructor
  · simp only [KDTree.nearest_neighbors_topn]
    by_cases he : (((sortByDist (nearest_recursive_n t.root target 0 t.k [])).take n).map
        Prod.snd).isEmpty = true
    · rw [if_pos he]
      simp only [List.isEmpty_iff] at he
      simpa using hkey.mp he
    · rw [if_neg he]
      simp only [List.isEmpty_iff] at he
      constructor
      · intro hcon; cases hcon
      · intro hc; exact absurd (hkey.mpr hc) he
  · intro lres hres
    simp only [KDTree.nearest_neighbors_topn] at hres
    by_cases he : (((sortByDist (nearest_recursive_n t.root target 0 t.k [])).take n).map
        Prod.snd).isEmpty = true
    · rw [if_pos he] at hres; cases hres
    · rw [if_neg he] at hres
      injection hres with hres
      rw [← hres]
      simpa [List.isEmpty_iff] using he

/-- Witness for C9 at the §8 scenario index with n = 0 (nothing is returned
even though the index holds three points). -/
theorem C9_topn_none_iff_witness :
    0 < 2 ∧ (∀ p ∈ [scenA, scenB, scenC], p.embedding.length = 2) ∧
    scenTarget.embedding.length = 2 ∧
    insertAll (KDTree.new 2) [scenA, scenB, scenC] = some scenTree ∧
    ((scenTree.nearest_neighbors_topn scenTarget 0 = none ↔
      (0 = 0 ∨ ([scenA, scenB, scenC] : List Point) = [])) ∧
     ∀ lres, scenTree.nearest_neighbors_topn scenTarget 0 = some lres → lres ≠ []) :=
  ⟨by decide, by decide, by decide, by decide,
   C9_topn_none_iff 2 [scenA, scenB, scenC] scenTarget scenTree 0
     (by decide) (by decide) (by decide) (by decide)⟩

/-- C2 counterexample: on the 2-D index built from [5,0], [0,9], [5,1] with
target [0,0] and n = 3, nearest_neighbors_topn returns only two points — not
min(3, count) = 3 — and omits [5,1], which is strictly closer to the target
than the returned [0,9]; so the result is neither of the claimed size nor the
brute-force top-n set: the opposite branch was pruned against the minimum
collected distance even though fewer than n candidates had been collected. -/
theorem C2_counterexample :
    insertAll (KDTree.new 2) [cexP1, cexP2, cexP3] = some cexTree ∧
    cexTree.len = 3 ∧
    cexTree.nearest_neighbors_topn cexTarget 3 = some [cexP1, cexP2] ∧
    ([cexP1, cexP2] : List Point).length ≠ min 3 cexTree.len ∧
    cexP3 ∉ ([cexP1, cexP2] : List Point) ∧
    euclidean_distance_sq cexP3.embedding cexTarget.embedding <
      euclidean_distance_sq cexP2.embedding cexTarget.embedding := by
  refine ⟨by decide, by decide, ?_, by decide, by decide, ?_⟩
  · norm_num [KDTree.nearest_neighbors_topn, nearest_recursive_n, euclidean_distance_sq,
      coord, ltFoldMin, fold_min, fold_min_step, sortByDist, insertSorted,
      cexTree, cexP1, cexP2, cexP3, cexTarget]
  · norm_num [euclidean_distance_sq, cexP1, cexP2, cexP3, cexTarget]

/-- C2 amended: whenever nearest_neighbors_topn returns a list, that list is
nonempty, holds at most min(n, count) stored points, is sorted in ascending
Euclidean distance to the target, and its first point minimizes Euclidean
distance among all inserted points; but since the opposite branch is pruned
whenever the axis-distance bound is at least the minimum collected distance —
even with fewer than n candidates collected — the list may be shorter than
min(n, count) and may differ from the brute-force top-n set. -/
theorem C2_amended_topn (k : ℕ) (pts : List Point) (target : Point)
    (t : KDTree) (n : ℕ) (hk : 0 < k) (hpts : ∀ p ∈ pts, p.embedding.length = k)
    (htarget : target.embedding.length = k)
    (hbuild : insertAll (KDTree.new k) pts = some t) :
    ∀ lres, t.nearest_neighbors_topn target n = some lres →
      lres ≠ [] ∧
      lres.length ≤ min n pts.length ∧
      (∀ p ∈ lres, p ∈ pts) ∧
      List.Sorted (fun a b => euclidean_distance_sq a.embedding target.embedding ≤
        euclidean_distance_sq b.embedding target.embedding) lres ∧
      ∀ p2 rest, lres = p2 :: rest →
        ∀ q ∈ pts, euclidean_distance_sq p2.embedding target.embedding ≤
          euclidean_distance_sq q.embedding target.embedding := by
  obtain ⟨t2, h2, h2k, h2i, h2l, h2p⟩ := insertAll_spec k hk pts (KDTree.new k) rfl
    trivial (fun q hq => absurd hq (by simp [KDTree.new, Tree.toList])) hpts
  rw [hbuild] at h2
  injection h2 with h2
  subst h2
  subst h2k
  simp only [KDTree.new, Tree.toList, List.append_nil] at h2p
  intro lres hres
  simp only [KDTree.nearest_neighbors_topn] at hres
  obtain ⟨⟨new, hneq, hnlen, hnprov⟩, hcov⟩ := nearest_recursive_n_spec target t.k hk
    htarget t.root 0 [] h2i h2l
  rw [List.nil_append] at hneq
  have hperm := sortByDist_perm (nearest_recursive_n t.root target 0 t.k [])
  have hsorted := sortByDist_sorted (nearest_recursive_n t.root target 0 t.k [])
  have hval : ∀ x ∈ sortByDist (nearest_recursive_n t.root target 0 t.k []),
      x.2 ∈ pts ∧ x.1 = euclidean_distance_sq x.2.embedding target.embedding := by
    intro x hx
    have hx2 : x ∈ nearest_recursive_n t.root target 0 t.k [] := hperm.mem_iff.mp hx
    rw [hneq] at hx2
    obtain ⟨hm, hv⟩ := hnprov x hx2
    exact ⟨h2p.mem_iff.mp hm, hv⟩
  by_cases he : (((sortByDist (nearest_recursive_n t.root target 0 t.k [])).take n).map
      Prod.snd).isEmpty = true
  · rw [if_pos he] at hres; cases hres
  · rw [if_neg he] at hres
    injection hres with hres
    refine ⟨?_, ?_, ?_, ?_, ?_⟩
    · rw [← hres]
      simpa [List.isEmpty_iff] using he
    · rw [← hres, List.length_map, List.length_take]
      have hl1 : (sortByDist (nearest_recursive_n t.root target 0 t.k [])).length
          = (nearest_recursive_n t.root target 0 t.k []).length := hperm.length_eq
      have hl2 : (nearest_recursive_n t.root target 0 t.k []).length ≤ pts.length := by
        rw [hneq]
        calc new.length ≤ t.root.toList.length := hnlen
          _ = pts.length := h2p.length_eq
      omega
    · intro p hp
      rw [← hres] at hp
      obtain ⟨x, hx, hxp⟩ := List.mem_map.mp hp
      have hx2 : x ∈ sortByDist (nearest_recursive_n t.root target 0 t.k []) :=
        (List.take_sublist n _).subset hx
      rw [← hxp]
      exact (hval x hx2).1
    · rw [← hres]
      rw [List.Sorted, List.pairwise_map]
      have hp1 : List.Pairwise (fun a b => a.1 ≤ b.1)
          ((sortByDist (nearest_recursive_n t.root target 0 t.k [])).take n) :=
        List.Pairwise.sublist (List.take_sublist n _) hsorted
      refine hp1.imp_of_mem ?_
      intro a b ha hb hab
      have hva := (hval a ((List.take_sublist n _).subset ha)).2
      have hvb := (hval b ((List.take_sublist n _).subset hb)).2
      rw [← hva, ← hvb]
      exact hab
    · intro p2 rest hlr q hq
      rw [hlr] at hres
      obtain ⟨x, xs, htake⟩ : ∃ x xs,
          (sortByDist (nearest_recursive_n t.root target 0 t.k [])).take n = x :: xs := by
        cases htk : (sortByDist (nearest_recursive_n t.root target 0 t.k [])).take n with
        | nil => rw [htk] at hres; simp at hres
        | cons x xs => exact ⟨x, xs, rfl⟩
      rw [htake] at hres
      simp only [List.map_cons] at hres
      injection hres with hx2 hrest
      obtain ⟨stail, hs⟩ : ∃ stail,
          sortByDist (nearest_recursive_n t.root target 0 t.k []) = x :: stail := by
        cases hsd : sortByDist (nearest_recursive_n t.root target 0 t.k []) with
        | nil => rw [hsd] at htake; simp at htake
        | cons y ys =>
          rw [hsd] at htake
          cases n with
          | zero => simp at htake
          | succ m =>
            rw [List.take_succ_cons] at htake
            injection htake with hyx _
            exact ⟨ys, by rw [hyx]⟩
      obtain ⟨y, hymem, hyle⟩ := hcov q (h2p.mem_iff.mpr hq)
      have hymem2 : y ∈ sortByDist (nearest_recursive_n t.root target 0 t.k []) :=
        hperm.mem_iff.mpr hymem
      rw [hs] at hymem2
      have hxle : x.1 ≤ y.1 := by
        rcases List.mem_cons.mp hymem2 with h3 | h3
        · rw [h3]
        · have hsc := List.sorted_cons.mp (hs ▸ hsorted)
          exact hsc.1 y h3
      have hvx := (hval x (by rw [hs]; exact List.mem_cons_self x stail)).2
      rw [← hx2, ← hvx]
      exact le_trans hxle hyle

/-- Witness for the amended C2 at the §8 scenario with n = 2 (the returned
list is exactly the §8 expected answer here). -/
theorem C2_amended_topn_witness :
    0 < 2 ∧ (∀ p ∈ [scenA, scenB, scenC], p.embedding.length = 2) ∧
    scenTarget.embedding.length = 2 ∧
    insertAll (KDTree.new 2) [scenA, scenB, scenC] = some scenTree ∧
    scenTree.nearest_neighbors_topn scenTarget 2 = some [scenA, scenB] ∧
    (∀ lres, scenTree.nearest_neighbors_topn scenTarget 2 = some lres →
      lres ≠ [] ∧
      lres.length ≤ min 2 ([scenA, scenB, scenC] : List Point).length ∧
      (∀ p ∈ lres, p ∈ [scenA, scenB, scenC]) ∧
      List.Sorted (fun a b => euclidean_distance_sq a.embedding scenTarget.embedding ≤
        euclidean_distance_sq b.embedding scenTarget.embedding) lres ∧
      ∀ p2 rest, lres = p2 :: rest →
        ∀ q ∈ [scenA, scenB, scenC],
          euclidean_distance_sq p2.embedding scenTarget.embedding ≤
            euclidean_distance_sq q.embedding scenTarget.embedding) :=
  ⟨by decide, by decide, by decide, by decide,
   by norm_num [KDTree.nearest_neighbors_topn, nearest_recursive_n, euclidean_distance_sq,
     coord, ltFoldMin, fold_min, fold_min_step, sortByDist, insertSorted,
     scenTree, scenA, scenB, scenC, scenTarget],
   C2_amended_topn 2 [scenA, scenB, scenC] scenTarget scenTree 2
     (by decide) (by decide) (by decide) (by decide)⟩

/-- C4: insertion does not report a DimensionMismatch.  Inserting a
too-short point into a populated 2-D index panics as soon as the split axis
reaches the missing coordinate (the whole process aborts — modelled as
`none`), and inserting a too-long point is silently accepted and grows the
index, rather than failing and leaving it unchanged. -/
theorem C4_insert_no_dimension_mismatch :
    (c4Tree.insert ⟨[5], "x"⟩ = none) ∧
    (∃ t2, c4Tree.insert ⟨[0, 0, 0], "y"⟩ = some t2 ∧ t2.len = c4Tree.len + 1) := by
  constructor
  · decide
  · exact ⟨⟨Tree.node ⟨[1, 2], "a"⟩ (Tree.node ⟨[0, 0, 0], "y"⟩ Tree.leaf Tree.leaf 1)
      (Tree.node ⟨[3, 4], "b"⟩ Tree.leaf Tree.leaf 1) 0, 2⟩, by decide, by decide⟩

lemma estimate_node_size_eq (t : Tree) :
    estimate_node_size t = size_of_Node * count_nodes t := by
  induction t with
  | leaf => simp [estimate_node_size, count_nodes]
  | node p l r ax ihl ihr =>
    simp [estimate_node_size, count_nodes, ihl, ihr]
    ring

set_option maxRecDepth 4000 in
/-- C7: the estimator charges a fixed constant per node and ignores the
embedding and payload bytes entirely: a single-node index with a
1000-element embedding and a 100-character payload is estimated exactly like
a single-node index with a 1-element embedding and an empty payload. -/
theorem C7_estimate_is_constant_per_node :
    (∀ t : KDTree, estimate_memory_usage t = size_of_KDTree + size_of_Node * t.len) ∧
    estimate_memory_usage bigTree = estimate_memory_usage smallTree ∧
    bigTree.root.toList.map (fun p => p.embedding.length) = [1000] ∧
    smallTree.root.toList.map (fun p => p.embedding.length) = [1] ∧
    bigTree.root.toList.map (fun p => p.data.length) = [100] ∧
    smallTree.root.toList.map (fun p => p.data.length) = [0] := by
  refine ⟨?_, by decide, ?_, by decide, ?_, by decide⟩
  · intro t
    rw [estimate_memory_usage, KDTree.len, estimate_node_size_eq]
  · show [(List.replicate 1000 (0 : ℚ)).length] = [1000]
    rw [List.length_replicate]
  · show [(List.replicate 100 'x').length] = [100]
    rw [List.length_replicate]

lemma decodeEmbedding_encode (qs : List ℚ) : ∀ rest : List Token,
    decodeEmbedding qs.length (qs.map Token.rat ++ rest) = some (qs, rest) := by
  induction qs with
  | nil => intro rest; rfl
  | cons q qs ih => intro rest; simp [decodeEmbedding, ih]

lemma decodePoint_encode (p : Point) (rest : List Token) :
    decodePoint (encodePoint p ++ rest) = some (p, rest) := by
  simp [encodePoint, decodePoint, decodeEmbedding_encode]

lemma count_le_encode_length (t : Tree) : count_nodes t ≤ (encodeTree t).length := by
  induction t with
  | leaf => simp [count_nodes, encodeTree]
  | node p l r ax ihl ihr =>
    simp [count_nodes, encodeTree]
    omega

lemma decodeTree_encode : ∀ (t : Tree) (fuel : ℕ) (rest : List Token),
    count_nodes t ≤ fuel →
    decodeTree fuel (encodeTree t ++ rest) = some (t, rest) := by
  intro t
  induction t with
  | leaf =>
    intro fuel rest _
    cases fuel <;> rfl
  | node p l r ax ihl ihr =>
    intro fuel rest hfuel
    cases fuel with
    | zero => simp [count_nodes] at hfuel
    | succ f =>
      have hfl : count_nodes l ≤ f := by
        simp only [count_nodes] at hfuel; omega
      have hfr : count_nodes r ≤ f := by
        simp only [count_nodes] at hfuel; omega
      simp only [encodeTree, List.cons_append, List.append_assoc, List.singleton_append]
      simp only [decodeTree, decodePoint_encode, Option.some_bind]
      rw [ihl f _ hfl]
      simp only [Option.some_bind]
      rw [ihr f _ hfr]
      simp only [Option.some_bind, List.nil_append]

lemma load_save (t : KDTree) : load_from_file (save_to_file t) = some t := by
  have hfuel : count_nodes t.root ≤ (encodeTree t.root ++ [Token.nat t.k]).length := by
    calc count_nodes t.root ≤ (encodeTree t.root).length := count_le_encode_length _
      _ ≤ (encodeTree t.root ++ [Token.nat t.k]).length := by simp
  unfold load_from_file save_to_file
  rw [decodeTree_encode t.root _ _ hfuel]

/-- C3: Load inverts Save exactly (the byte stream holds the dimensionality
and the full tree), so a reloaded index answers every nearest_neighbor and
nearest_neighbors_topn query identically to the original. -/
theorem C3_save_load_roundtrip (t : KDTree) :
    load_from_file (save_to_file t) = some t ∧
    ∀ t2, load_from_file (save_to_file t) = some t2 →
      (∀ target, t2.nearest_neighbor target = t.nearest_neighbor target) ∧
      (∀ target n, t2.nearest_neighbors_topn target n = t.nearest_neighbors_topn target n) := by
  refine ⟨load_save t, ?_⟩
  intro t2 h2
  rw [load_save t] at h2
  injection h2 with h2
  subst h2
  exact ⟨fun _ => rfl, fun _ _ => rfl⟩

lemma find_lru_step_none (acc : Option (String × KDTreeCache)) (x : String × KDTreeCache)
    (h : find_lru_step acc x = none) : acc = none ∧ x.2.tree.isSome = false := by
  unfold find_lru_step at h
  by_cases hx : x.2.tree.isSome = true
  · rw [if_pos hx] at h
    cases acc with
    | none => cases h
    | some lru =>
      by_cases hlt : x.2.last_accessed < lru.2.last_accessed
      · simp only [if_pos hlt] at h; cases h
      · simp only [if_neg hlt] at h; cases h
  · rw [if_neg hx] at h
    exact ⟨h, Bool.eq_false_iff.mpr hx⟩

lemma find_lru_step_some (acc : Option (String × KDTreeCache)) (x e2 : String × KDTreeCache)
    (h : find_lru_step acc x = some e2) :
    (e2 = x ∧ x.2.tree.isSome = true) ∨ acc = some e2 := by
  unfold find_lru_step at h
  by_cases hx : x.2.tree.isSome = true
  · rw [if_pos hx] at h
    cases acc with
    | none =>
      injection h with h
      exact Or.inl ⟨h.symm, hx⟩
    | some lru =>
      by_cases hlt : x.2.last_accessed < lru.2.last_accessed
      · simp only [if_pos hlt] at h
        injection h with h
        exact Or.inl ⟨h.symm, hx⟩
      · simp only [if_neg hlt] at h
        exact Or.inr h
  · rw [if_neg hx] at h
    exact Or.inr h

lemma find_lru_step_acc (acc : Option (String × KDTreeCache)) (x e0 : String × KDTreeCache)
    (h : acc = some e0) :
    ∃ e1, find_lru_step acc x = some e1 ∧ e1.2.last_accessed ≤ e0.2.last_accessed := by
  subst h
  unfold find_lru_step
  by_cases hx : x.2.tree.isSome = true
  · rw [if_pos hx]
    by_cases hlt : x.2.last_accessed < e0.2.last_accessed
    · exact ⟨x, by simp [hlt], le_of_lt hlt⟩
    · exact ⟨e0, by simp [hlt], le_refl _⟩
  · rw [if_neg hx]
    exact ⟨e0, rfl, le_refl _⟩

lemma find_lru_step_x (acc : Option (String × KDTreeCache)) (x : String × KDTreeCache)
    (h : x.2.tree.isSome = true) :
    ∃ e1, find_lru_step acc x = some e1 ∧ e1.2.last_accessed ≤ x.2.last_accessed := by
  unfold find_lru_step
  rw [if_pos h]
  cases acc with
  | none => exact ⟨x, rfl, le_refl _⟩
  | some lru =>
    by_cases hlt : x.2.last_accessed < lru.2.last_accessed
    · exact ⟨x, by simp [hlt], le_refl _⟩
    · exact ⟨lru, by simp [hlt], le_of_not_lt hlt⟩

lemma find_lru_foldl (l : List (String × KDTreeCache)) :
    ∀ acc : Option (String × KDTreeCache),
      (l.foldl find_lru_step acc = none →
        acc = none ∧ ∀ e ∈ l, e.2.tree.isSome = false) ∧
      (∀ e2, l.foldl find_lru_step acc = some e2 →
        (acc = some e2 ∨ (e2 ∈ l ∧ e2.2.tree.isSome = true)) ∧
        (∀ e0, acc = some e0 → e2.2.last_accessed ≤ e0.2.last_accessed) ∧
        (∀ e ∈ l, e.2.tree.isSome = true →
          e2.2.last_accessed ≤ e.2.last_accessed)) := by
  induction l with
  | nil =>
    intro acc
    simp only [List.foldl_nil]
    refine ⟨fun h => ⟨h, by simp⟩, ?_⟩
    intro e2 h
    refine ⟨Or.inl h, ?_, by simp⟩
    intro e0 h0
    rw [h0] at h
    injection h with h
    rw [h]
  | cons x xs ih =>
    intro acc
    simp only [List.foldl_cons]
    constructor
    · intro h
      obtain ⟨hstep, hall⟩ := (ih (find_lru_step acc x)).1 h
      obtain ⟨hacc, hx⟩ := find_lru_step_none acc x hstep
      refine ⟨hacc, ?_⟩
      intro e he
      rcases List.mem_cons.mp he with h2 | h2
      · rw [h2]; exact hx
      · exact hall e h2
    · intro e2 h
      obtain ⟨hmem, hbnd, hall⟩ := (ih (find_lru_step acc x)).2 e2 h
      constructor
      · rcases hmem with hmem | hmem
        · rcases find_lru_step_some acc x e2 hmem with ⟨he, hx⟩ | hacc
          · exact Or.inr ⟨by rw [he]; exact List.mem_cons_self x xs, by rw [he]; exact hx⟩
          · exact Or.inl hacc
        · exact Or.inr ⟨List.mem_cons_of_mem x hmem.1, hmem.2⟩
      constructor
      · intro e0 h0
        obtain ⟨e1, he1, hle⟩ := find_lru_step_acc acc x e0 h0
        exact le_trans (hbnd e1 he1) hle
      · intro e he hres
        rcases List.mem_cons.mp he with h2 | h2
        · obtain ⟨e1, he1, hle⟩ := find_lru_step_x acc x (by rw [← h2]; exact hres)
          rw [h2]
          exact le_trans (hbnd e1 he1) hle
        · exact hall e h2 hres

lemma find_lru_none (trees : CacheMap) (h : find_lru trees = none) :
    ∀ e ∈ trees, e.2.tree.isSome = false :=
  ((find_lru_foldl trees none).1 h).2

lemma find_lru_some (trees : CacheMap) (e2 : String × KDTreeCache)
    (h : find_lru trees = some e2) :
    e2 ∈ trees ∧ e2.2.tree.isSome = true ∧
    ∀ e ∈ trees, e.2.tree.isSome = true →
      e2.2.last_accessed ≤ e.2.last_accessed := by
  obtain ⟨hmem, _, hall⟩ := (find_lru_foldl trees none).2 e2 h
  rcases hmem with hmem | hmem
  · cases hmem
  · exact ⟨hmem.1, hmem.2, hall⟩

lemma blank_eq (c : KDTreeCache) (h : c.tree = none) :
    ({ c with tree := none } : KDTreeCache) = c := by
  cases c with
  | mk tr la =>
    have h2 : tr = none := h
    rw [h2]

lemma take_tree_fst (trees : CacheMap) (name : String) :
    ((take_tree trees name).1).map Prod.fst = trees.map Prod.fst := by
  induction trees with
  | nil => rfl
  | cons e es ih =>
    by_cases h : e.1 = name
    · simp [take_tree, h]
    · simp [take_tree, h, ih]

lemma resident_count_cons (e : String × KDTreeCache) (es : CacheMap) :
    resident_count (e :: es) =
      (if e.2.tree.isSome then 1 else 0) + resident_count es := by
  by_cases h : e.2.tree.isSome = true <;>
    simp [resident_count, List.filter_cons, h] <;> omega

lemma take_tree_found (trees : CacheMap) (name : String) (c : KDTreeCache) :
    (trees.map Prod.fst).Nodup → (name, c) ∈ trees →
    (take_tree trees name).2 = c.tree ∧
    (name, { c with tree := none }) ∈ (take_tree trees name).1 ∧
    total_memory trees = total_memory (take_tree trees name).1 + entry_memory (name, c) ∧
    (c.tree.isSome = true →
      resident_count trees = resident_count (take_tree trees name).1 + 1) := by
  induction trees with
  | nil => intro _ h; cases h
  | cons e es ih =>
    intro hnodup hmem
    by_cases h : e.1 = name
    · have he : e = (name, c) := by
        rcases List.mem_cons.mp hmem with h2 | h2
        · exact h2.symm
        · exfalso
          have hmm : name ∈ es.map Prod.fst := List.mem_map.mpr ⟨(name, c), h2, rfl⟩
          have hhd : e.1 ∉ es.map Prod.fst :=
            (List.nodup_cons.mp (by simpa using hnodup)).1
          rw [h] at hhd
          exact hhd hmm
      subst he
      refine ⟨by simp [take_tree], by simp [take_tree], ?_, ?_⟩
      · rw [show take_tree ((name, c) :: es) name =
            ((name, { c with tree := none }) :: es, c.tree) by simp [take_tree]]
        simp only [total_memory, List.map_cons, List.sum_cons]
        have hz : entry_memory (name, { c with tree := none }) = 0 := rfl
        rw [hz]
        omega
      · intro hres
        rw [show take_tree ((name, c) :: es) name =
            ((name, { c with tree := none }) :: es, c.tree) by simp [take_tree]]
        rw [resident_count_cons, resident_count_cons]
        simp only [hres, if_pos]
        simp
        omega
    · have hmem2 : (name, c) ∈ es := by
        rcases List.mem_cons.mp hmem with h2 | h2
        · exfalso; apply h; rw [← h2]
        · exact h2
      obtain ⟨h1, h2, h3, h4⟩ := ih (List.nodup_cons.mp (by simpa using hnodup)).2 hmem2
      have hunf : take_tree (e :: es) name =
          (e :: (take_tree es name).1, (take_tree es name).2) := by
        simp [take_tree, h]
      refine ⟨?_, ?_, ?_, ?_⟩
      · rw [hunf]; exact h1
      · rw [hunf]; exact List.mem_cons_of_mem e h2
      · rw [hunf]
        simp only [total_memory, List.map_cons, List.sum_cons]
        simp only [total_memory] at h3
        omega
      · intro hres
        rw [hunf]
        rw [resident_count_cons, resident_count_cons]
        have := h4 hres
        omega

lemma take_tree_mem_of_resident (trees : CacheMap) (name n2 : String) (c2 : KDTreeCache) :
    (trees.map Prod.fst).Nodup →
    (n2, c2) ∈ (take_tree trees name).1 → c2.tree.isSome = true →
    (n2, c2) ∈ trees ∧ (name ∈ trees.map Prod.fst → n2 ≠ name) := by
  induction trees with
  | nil => intro _ h; cases h
  | cons e es ih =>
    intro hnodup hmem hres
    by_cases h : e.1 = name
    · rw [show take_tree (e :: es) name =
          ((e.1, { e.2 with tree := none }) :: es, e.2.tree) by simp [take_tree, h]] at hmem
      rcases List.mem_cons.mp hmem with h2 | h2
      · exfalso
        have : c2.tree = none := by
          have h3 : c2 = { e.2 with tree := none } := congrArg Prod.snd h2
          rw [h3]
        rw [this] at hres
        cases hres
      · refine ⟨List.mem_cons_of_mem e h2, fun _ => ?_⟩
        intro hn2
        have hmm : n2 ∈ es.map Prod.fst := List.mem_map.mpr ⟨(n2, c2), h2, rfl⟩
        have hhd : e.1 ∉ es.map Prod.fst :=
          (List.nodup_cons.mp (by simpa using hnodup)).1
        rw [h, ← hn2] at hhd
        exact hhd hmm
    · rw [show take_tree (e :: es) name =
          (e :: (take_tree es name).1, (take_tree es name).2) by simp [take_tree, h]] at hmem
      rcases List.mem_cons.mp hmem with h2 | h2
      · refine ⟨by rw [h2]; exact List.mem_cons_self e es, fun _ => ?_⟩
        have hn : n2 = e.1 := congrArg Prod.fst h2
        rw [hn]
        exact h
      · obtain ⟨hm, himp⟩ := ih (List.nodup_cons.mp (by simpa using hnodup)).2 h2 hres
        refine ⟨List.mem_cons_of_mem e hm, ?_⟩
        intro hkey
        rcases (by simpa using hkey : name = e.1 ∨ ∃ x, (name, x) ∈ es) with h3 | ⟨x, h3⟩
        · exact absurd h3.symm h
        · exact himp (List.mem_map.mpr ⟨(name, x), h3, rfl⟩)

lemma take_tree_mem_none (trees : CacheMap) (name n2 : String) (c2 : KDTreeCache) :
    (n2, c2) ∈ trees → c2.tree = none →
    (n2, c2) ∈ (take_tree trees name).1 := by
  induction trees with
  | nil => intro h; cases h
  | cons e es ih =>
    intro hmem hnone
    by_cases h : e.1 = name
    · rw [show (take_tree (e :: es) name).1 =
          (e.1, { e.2 with tree := none }) :: es from by simp [take_tree, h]]
      rcases List.mem_cons.mp hmem with h2 | h2
      · have he2 : e.2 = c2 := (congrArg Prod.snd h2).symm
        have he1 : e.1 = n2 := (congrArg Prod.fst h2).symm
        rw [he1, he2, blank_eq c2 hnone]
        exact List.mem_cons_self _ _
      · exact List.mem_cons_of_mem _ h2
    · rw [show (take_tree (e :: es) name).1 =
          e :: (take_tree es name).1 from by simp [take_tree, h]]
      rcases List.mem_cons.mp hmem with h2 | h2
      · rw [h2]; exact List.mem_cons_self e _
      · exact List.mem_cons_of_mem e (ih h2 hnone)

lemma take_tree_ts (trees : CacheMap) (name n2 : String) :
    entry_ts (take_tree trees name).1 n2 = entry_ts trees n2 := by
  induction trees with
  | nil => rfl
  | cons e es ih =>
    by_cases h : e.1 = name
    · rw [show take_tree (e :: es) name =
          ((e.1, { e.2 with tree := none }) :: es, e.2.tree) by simp [take_tree, h]]
      by_cases h2 : e.1 = n2
      · simp [entry_ts, h2]
      · simp [entry_ts, h2]
    · rw [show take_tree (e :: es) name =
          (e :: (take_tree es name).1, (take_tree es name).2) by simp [take_tree, h]]
      by_cases h2 : e.1 = n2
      · simp [entry_ts, h2]
      · simp [entry_ts, h2, ih]

lemma entry_ts_eq (trees : CacheMap) (n : String) (c : KDTreeCache) :
    (trees.map Prod.fst).Nodup → (n, c) ∈ trees →
    entry_ts trees n = c.last_accessed := by
  induction trees with
  | nil => intro _ h; cases h
  | cons e es ih =>
    intro hnodup hmem
    rcases List.mem_cons.mp hmem with h2 | h2
    · rw [← h2]
      simp [entry_ts]
    · by_cases h : e.1 = n
      · exfalso
        have hmm : n ∈ es.map Prod.fst := List.mem_map.mpr ⟨(n, c), h2, rfl⟩
        have hhd : e.1 ∉ es.map Prod.fst :=
          (List.nodup_cons.mp (by simpa using hnodup)).1
        rw [h] at hhd
        exact hhd hmm
      · simp only [entry_ts, if_neg h]
        exact ih (List.nodup_cons.mp (by simpa using hnodup)).2 h2

lemma resident_count_zero (trees : CacheMap)
    (h : ∀ e ∈ trees, e.2.tree.isSome = false) : resident_count trees = 0 := by
  simp only [resident_count, List.length_eq_zero]
  rw [List.filter_eq_nil_iff]
  intro e he
  simp [h e he]

lemma total_memory_zero (trees : CacheMap)
    (h : resident_count trees = 0) : total_memory trees = 0 := by
  induction trees with
  | nil => rfl
  | cons e es ih =>
    rw [resident_count_cons] at h
    by_cases hres : e.2.tree.isSome = true
    · rw [if_pos hres] at h; omega
    · rw [if_neg hres] at h
      rw [Nat.zero_add] at h
      simp only [total_memory, List.map_cons, List.sum_cons]
      have h1 : entry_memory e = 0 := by
        unfold entry_memory
        cases he : e.2.tree with
        | none => rfl
        | some t => rw [he] at hres; simp at hres
      rw [h1]
      simpa [total_memory] using ih h

lemma manage_memory_loop_preserves_none :
    ∀ (fuel : ℕ) (trees : CacheMap) (total budget : ℕ)
      (writes : List (String × KDTree)) (n2 : String) (c2 : KDTreeCache),
      (n2, c2) ∈ trees → c2.tree = none →
      (n2, c2) ∈ (manage_memory_loop fuel trees total budget writes).1 := by
  intro fuel
  induction fuel with
  | zero =>
    intro trees total budget writes n2 c2 hmem _
    simpa [manage_memory_loop] using hmem
  | succ f ih =>
    intro trees total budget writes n2 c2 hmem hnone
    simp only [manage_memory_loop]
    split
    · exact hmem
    · split
      · exact hmem
      · rename_i lru hul
        split
        · exact ih _ _ _ _ _ _ (take_tree_mem_none trees lru.1 n2 c2 hmem hnone) hnone
        · exact ih _ _ _ _ _ _ (take_tree_mem_none trees lru.1 n2 c2 hmem hnone) hnone

lemma manage_memory_loop_resident_mem :
    ∀ (fuel : ℕ) (trees : CacheMap) (total budget : ℕ)
      (writes : List (String × KDTree)) (n2 : String) (c2 : KDTreeCache),
      (trees.map Prod.fst).Nodup →
      (n2, c2) ∈ (manage_memory_loop fuel trees total budget writes).1 →
      c2.tree.isSome = true → (n2, c2) ∈ trees := by
  intro fuel
  induction fuel with
  | zero =>
    intro trees total budget writes n2 c2 _ hmem _
    simpa [manage_memory_loop] using hmem
  | succ f ih =>
    intro trees total budget writes n2 c2 hnodup hmem hres
    simp only [manage_memory_loop] at hmem
    split at hmem
    · exact hmem
    · split at hmem
      · exact hmem
      · rename_i lru hul
        have hnodup2 : (((take_tree trees lru.1).1).map Prod.fst).Nodup := by
          rw [take_tree_fst]; exact hnodup
        split at hmem
        · have h2 := ih _ _ _ _ _ _ hnodup2 hmem hres
          exact (take_tree_mem_of_resident trees lru.1 n2 c2 hnodup h2 hres).1
        · have h2 := ih _ _ _ _ _ _ hnodup2 hmem hres
          exact (take_tree_mem_of_resident trees lru.1 n2 c2 hnodup h2 hres).1

lemma manage_memory_loop_post :
    ∀ (fuel : ℕ) (trees : CacheMap) (total budget : ℕ)
      (writes : List (String × KDTree)),
      (trees.map Prod.fst).Nodup → total = total_memory trees →
      resident_count trees ≤ fuel →
      total_memory (manage_memory_loop fuel trees total budget writes).1 ≤ budget ∨
      resident_count (manage_memory_loop fuel trees total budget writes).1 = 0 := by
  intro fuel
  induction fuel with
  | zero =>
    intro trees total budget writes _ _ hrc
    right
    simpa [manage_memory_loop] using Nat.le_zero.mp hrc
  | succ f ih =>
    intro trees total budget writes hnodup htot hrc
    simp only [manage_memory_loop]
    split
    · rename_i hb
      left
      rw [← htot]
      exact hb
    · split
      · rename_i hul
        right
        exact resident_count_zero trees (find_lru_none trees hul)
      · rename_i lru hul
        obtain ⟨hlmem, hlres, _⟩ := find_lru_some trees lru hul
        have hmem2 : (lru.1, lru.2) ∈ trees := by rw [Prod.mk.eta]; exact hlmem
        obtain ⟨t0, hct⟩ := Option.isSome_iff_exists.mp hlres
        obtain ⟨htake, _, htotal, hcount⟩ := take_tree_found trees lru.1 lru.2 hnodup hmem2
        have hem : entry_memory (lru.1, lru.2) = estimate_memory_usage t0 := by
          unfold entry_memory
          simp only
          rw [hct]
        have hnodup2 : (((take_tree trees lru.1).1).map Prod.fst).Nodup := by
          rw [take_tree_fst]; exact hnodup
        split
        · rename_i t htk
          have ht0 : t = t0 := by
            rw [htk, hct] at htake
            injection htake
          subst ht0
          have htot2 : total - estimate_memory_usage t
              = total_memory (take_tree trees lru.1).1 := by
            rw [htot, htotal, hem]
            omega
          have hrc2 : resident_count (take_tree trees lru.1).1 ≤ f := by
            have := hcount hlres
            omega
          exact ih _ _ _ _ hnodup2 htot2 hrc2
        · rename_i htk
          rw [htk, hct] at htake
          cases htake

/-- C5: after manage_memory returns, either the total estimated memory of
the resident indexes is at most the budget, or no entry is resident (and
then the total is zero, hence also at most the budget); the loop terminates
— every productive iteration evicts one resident entry, so the entry count
supplied as fuel is never exhausted. -/
theorem C5_manage_memory_post (trees : CacheMap) (budget : ℕ)
    (hnodup : (trees.map Prod.fst).Nodup) :
    (total_memory (manage_memory trees budget).1 ≤ budget ∨
      resident_count (manage_memory trees budget).1 = 0) ∧
    total_memory (manage_memory trees budget).1 ≤ budget := by
  have hpost := manage_memory_loop_post trees.length trees (total_memory trees) budget []
    hnodup rfl (List.length_filter_le _ _)
  refine ⟨hpost, ?_⟩
  rcases hpost with h | h
  · exact h
  · rw [show (manage_memory trees budget) = manage_memory_loop trees.length trees
      (total_memory trees) budget [] from rfl]
    rw [total_memory_zero _ h]
    exact Nat.zero_le _

/-- Witness for C5: two resident single-node indexes (88 bytes each) against
a 100-byte budget end under budget after one eviction. -/
theorem C5_manage_memory_post_witness :
    ((wCache.map Prod.fst).Nodup) ∧
    ((total_memory (manage_memory wCache 100).1 ≤ 100 ∨
      resident_count (manage_memory wCache 100).1 = 0) ∧
     total_memory (manage_memory wCache 100).1 ≤ 100) :=
  ⟨by decide, C5_manage_memory_post wCache 100 (by decide)⟩

lemma manage_memory_loop_lru :
    ∀ (fuel : ℕ) (trees : CacheMap) (total budget : ℕ) (w0 : List (String × KDTree)),
      (trees.map Prod.fst).Nodup →
      (∀ e1 ∈ trees, ∀ e2 ∈ trees, e1.2.tree.isSome = true → e2.2.tree.isSome = true →
        e1.2.last_accessed = e2.2.last_accessed → e1 = e2) →
      total = total_memory trees →
      resident_count trees ≤ fuel →
      ∃ new, (manage_memory_loop fuel trees total budget w0).2 = w0 ++ new ∧
        (∀ w ∈ new, ∃ c, (w.1, c) ∈ trees ∧ c.tree = some w.2 ∧
          (w.1, { c with tree := none }) ∈ (manage_memory_loop fuel trees total budget w0).1) ∧
        new.Pairwise (fun w1 w2 => entry_ts trees w1.1 < entry_ts trees w2.1) ∧
        (∀ w ∈ new, ∀ e ∈ (manage_memory_loop fuel trees total budget w0).1,
          e.2.tree.isSome = true → entry_ts trees w.1 < e.2.last_accessed) ∧
        total_memory trees = total_memory (manage_memory_loop fuel trees total budget w0).1 +
          (new.map (fun w => estimate_memory_usage w.2)).sum ∧
        (∀ i < new.length, budget <
          total_memory (manage_memory_loop fuel trees total budget w0).1 +
          ((new.drop i).map (fun w => estimate_memory_usage w.2)).sum) := by
  intro fuel
  induction fuel with
  | zero =>
    intro trees total budget w0 _ _ _ _
    exact ⟨[], by simp [manage_memory_loop], by simp, by simp, by simp,
      by simp [manage_memory_loop], by simp⟩
  | succ f ih =>
    intro trees total budget w0 hnodup hdist htot hrc
    simp only [manage_memory_loop]
    split
    · exact ⟨[], by simp, by simp, by simp, by simp, by simp, by simp⟩
    · rename_i hb
      split
      · exact ⟨[], by simp, by simp, by simp, by simp, by simp, by simp⟩
      · rename_i lru hul
        obtain ⟨hlmem, hlres, hmin⟩ := find_lru_some trees lru hul
        have hmem2 : (lru.1, lru.2) ∈ trees := by rw [Prod.mk.eta]; exact hlmem
        obtain ⟨htake, hblank, htotal, hcount⟩ := take_tree_found trees lru.1 lru.2
          hnodup hmem2
        have hnodup2 : (((take_tree trees lru.1).1).map Prod.fst).Nodup := by
          rw [take_tree_fst]; exact hnodup
        have hkey : lru.1 ∈ trees.map Prod.fst := List.mem_map.mpr ⟨lru, hlmem, rfl⟩
        -- facts about resident entries of the blanked map
        have hres2 : ∀ n2 c2, (n2, c2) ∈ (take_tree trees lru.1).1 →
            c2.tree.isSome = true → (n2, c2) ∈ trees ∧ n2 ≠ lru.1 := by
          intro n2 c2 hm hr
          obtain ⟨hm2, himp⟩ := take_tree_mem_of_resident trees lru.1 n2 c2 hnodup hm hr
          exact ⟨hm2, himp hkey⟩
        have hdist2 : ∀ e1 ∈ (take_tree trees lru.1).1, ∀ e2 ∈ (take_tree trees lru.1).1,
            e1.2.tree.isSome = true → e2.2.tree.isSome = true →
            e1.2.last_accessed = e2.2.last_accessed → e1 = e2 := by
          intro e1 he1 e2 he2 hr1 hr2 hla
          have h1 := (hres2 e1.1 e1.2 (by rw [Prod.mk.eta]; exact he1) hr1).1
          have h2 := (hres2 e2.1 e2.2 (by rw [Prod.mk.eta]; exact he2) hr2).1
          rw [Prod.mk.eta] at h1 h2
          exact hdist e1 h1 e2 h2 hr1 hr2 hla
        -- strict minimality of the evicted timestamp
        have hstrict : ∀ n2 c2, (n2, c2) ∈ trees → c2.tree.isSome = true →
            n2 ≠ lru.1 → lru.2.last_accessed < c2.last_accessed := by
          intro n2 c2 hm hr hne
          rcases lt_or_eq_of_le (hmin (n2, c2) hm hr) with h | h
          · exact h
          · exfalso
            have := hdist lru hlmem (n2, c2) hm hlres hr h
            exact hne (congrArg Prod.fst this).symm
        split
        · rename_i t htk
          have hlt : lru.2.tree = some t := by rw [← htake]; exact htk
          have hem : entry_memory (lru.1, lru.2) = estimate_memory_usage t := by
            unfold entry_memory
            simp only
            rw [hlt]
          have htot2 : total - estimate_memory_usage t
              = total_memory (take_tree trees lru.1).1 := by
            rw [htot, htotal, hem]
            omega
          have hrc2 : resident_count (take_tree trees lru.1).1 ≤ f := by
            have := hcount hlres
            omega
          obtain ⟨new2, heq2, hprov2, hpair2, holder2, hcons2, hneed2⟩ :=
            ih (take_tree trees lru.1).1 (total - estimate_memory_usage t) budget
              (w0 ++ [(lru.1, t)]) hnodup2 hdist2 htot2 hrc2
          have hts2 : ∀ n2, entry_ts (take_tree trees lru.1).1 n2 = entry_ts trees n2 :=
            fun n2 => take_tree_ts trees lru.1 n2
          have htslru : entry_ts trees lru.1 = lru.2.last_accessed :=
            entry_ts_eq trees lru.1 lru.2 hnodup hmem2
          -- every eviction in new2 names an entry of trees older than lru is false:
          -- rather, every new2 entry is a resident of the blanked map, hence of trees
          have hnew2trees : ∀ w ∈ new2, ∃ c, (w.1, c) ∈ trees ∧ c.tree = some w.2 ∧
              w.1 ≠ lru.1 ∧
              (w.1, { c with tree := none }) ∈
                (manage_memory_loop f (take_tree trees lru.1).1
                  (total - estimate_memory_usage t) budget (w0 ++ [(lru.1, t)])).1 := by
            intro w hw
            obtain ⟨c, hc1, hc2, hc3⟩ := hprov2 w hw
            have hcres : c.tree.isSome = true := by rw [hc2]; rfl
            obtain ⟨hmm, hne⟩ := hres2 w.1 c hc1 hcres
            exact ⟨c, hmm, hc2, hne, hc3⟩
          -- residents of the final map come from the blanked map
          have hfinal : ∀ e, e ∈ (manage_memory_loop f (take_tree trees lru.1).1
                (total - estimate_memory_usage t) budget (w0 ++ [(lru.1, t)])).1 →
              e.2.tree.isSome = true → (e.1, e.2) ∈ trees ∧ e.1 ≠ lru.1 := by
            intro e he hr
            have hm2 := manage_memory_loop_resident_mem f (take_tree trees lru.1).1
              (total - estimate_memory_usage t) budget (w0 ++ [(lru.1, t)]) e.1 e.2
              hnodup2 (by rw [Prod.mk.eta]; exact he) hr
            exact hres2 e.1 e.2 hm2 hr
          refine ⟨(lru.1, t) :: new2, ?_, ?_, ?_, ?_, ?_, ?_⟩
          · rw [heq2]; simp
          · intro w hw
            rcases List.mem_cons.mp hw with hw | hw
            · subst hw
              refine ⟨lru.2, hmem2, hlt, ?_⟩
              exact manage_memory_loop_preserves_none f (take_tree trees lru.1).1
                (total - estimate_memory_usage t) budget (w0 ++ [(lru.1, t)])
                lru.1 { lru.2 with tree := none } hblank rfl
            · obtain ⟨c, hc1, hc2, _, hc4⟩ := hnew2trees w hw
              exact ⟨c, hc1, hc2, hc4⟩
          · refine List.pairwise_cons.mpr ⟨?_, ?_⟩
            · intro w hw
              obtain ⟨c, hc1, hc2, hne, _⟩ := hnew2trees w hw
              have hcres : c.tree.isSome = true := by rw [hc2]; rfl
              rw [htslru, entry_ts_eq trees w.1 c hnodup hc1]
              exact hstrict w.1 c hc1 hcres hne
            · refine hpair2.imp ?_
              intro w1 w2 h12
              rw [hts2, hts2] at h12
              exact h12
          · intro w hw e he hr
            rcases List.mem_cons.mp hw with hw | hw
            · subst hw
              obtain ⟨hm2, hne⟩ := hfinal e he hr
              rw [htslru]
              exact hstrict e.1 e.2 hm2 hr hne
            · have := holder2 w hw e he hr
              rw [hts2] at this
              exact this
          · rw [htotal, hem]
            simp only [List.map_cons, List.sum_cons]
            omega
          · intro i hi
            cases i with
            | zero =>
              simp only [List.drop_zero, List.map_cons, List.sum_cons]
              have hb2 : budget < total := Nat.lt_of_not_le hb
              rw [htot, htotal, hem] at hb2
              omega
            | succ j =>
              simp only [List.drop_succ_cons]
              have hj : j < new2.length := by
                simp at hi
                omega
              exact hneed2 j hj
        · rename_i htk
          rw [htk] at htake
          rw [← htake] at hlres
          cases hlres

/-- C6: when the resident entries carry pairwise distinct last_accessed
timestamps and the total estimated memory exceeds the budget, manage_memory
evicts resident entries strictly oldest-first: the sequence of offloaded
(name, tree) writes is strictly ascending in the entries' last_accessed,
each write persists exactly the tree that was resident under that name and
leaves that entry non-resident, every evicted entry is older than every
entry still resident afterwards, every performed eviction happened while the
running total still exceeded the budget (it stops as soon as the total is at
or below budget), and the final total is at or below the budget. -/
theorem C6_lru_eviction_order (trees : CacheMap) (budget : ℕ)
    (hnodup : (trees.map Prod.fst).Nodup)
    (hdist : ∀ e1 ∈ trees, ∀ e2 ∈ trees, e1.2.tree.isSome = true →
      e2.2.tree.isSome = true → e1.2.last_accessed = e2.2.last_accessed → e1 = e2)
    (hover : budget < total_memory trees) :
    (manage_memory trees budget).2.Pairwise
      (fun w1 w2 => entry_ts trees w1.1 < entry_ts trees w2.1) ∧
    (∀ w ∈ (manage_memory trees budget).2, ∃ c, (w.1, c) ∈ trees ∧
      c.tree = some w.2 ∧
      (w.1, { c with tree := none }) ∈ (manage_memory trees budget).1) ∧
    (∀ w ∈ (manage_memory trees budget).2, ∀ e ∈ (manage_memory trees budget).1,
      e.2.tree.isSome = true → entry_ts trees w.1 < e.2.last_accessed) ∧
    (∀ i < (manage_memory trees budget).2.length, budget <
      total_memory (manage_memory trees budget).1 +
      (((manage_memory trees budget).2.drop i).map
        (fun w => estimate_memory_usage w.2)).sum) ∧
    total_memory (manage_memory trees budget).1 ≤ budget := by
  obtain ⟨new, heq, hprov, hpair, holder, hcons, hneed⟩ := manage_memory_loop_lru
    trees.length trees (total_memory trees) budget [] hnodup hdist rfl
    (List.length_filter_le _ _)
  have hmm : manage_memory trees budget = manage_memory_loop trees.length trees
    (total_memory trees) budget [] := rfl
  rw [List.nil_append] at heq
  have hle : total_memory (manage_memory trees budget).1 ≤ budget := by
    rcases manage_memory_loop_post trees.length trees (total_memory trees) budget []
        hnodup rfl (List.length_filter_le _ _) with h | h
    · rw [hmm]; exact h
    · rw [hmm, total_memory_zero _ h]
      exact Nat.zero_le _
  rw [hmm, heq]
  exact ⟨hpair, hprov, holder, hneed, by rw [← hmm]; exact hle⟩

/-- Witness for C6: two resident entries with distinct timestamps (5 and 3),
88 bytes each, over a 100-byte budget. -/
theorem C6_lru_eviction_order_witness :
    ((wCache.map Prod.fst).Nodup ∧
     (∀ e1 ∈ wCache, ∀ e2 ∈ wCache, e1.2.tree.isSome = true →
       e2.2.tree.isSome = true → e1.2.last_accessed = e2.2.last_accessed → e1 = e2) ∧
     100 < total_memory wCache) ∧
    ((manage_memory wCache 100).2.Pairwise
      (fun w1 w2 => entry_ts wCache w1.1 < entry_ts wCache w2.1) ∧
    (∀ w ∈ (manage_memory wCache 100).2, ∃ c, (w.1, c) ∈ wCache ∧
      c.tree = some w.2 ∧
      (w.1, { c with tree := none }) ∈ (manage_memory wCache 100).1) ∧
    (∀ w ∈ (manage_memory wCache 100).2, ∀ e ∈ (manage_memory wCache 100).1,
      e.2.tree.isSome = true → entry_ts wCache w.1 < e.2.last_accessed) ∧
    (∀ i < (manage_memory wCache 100).2.length, 100 <
      total_memory (manage_memory wCache 100).1 +
      (((manage_memory wCache 100).2.drop i).map
        (fun w => estimate_memory_usage w.2)).sum) ∧
    total_memory (manage_memory wCache 100).1 ≤ 100) :=
  ⟨⟨by decide, by decide, by decide⟩,
   C6_lru_eviction_order wCache 100 (by decide) (by decide) (by decide)⟩

/-- C8: insert_point swallows a non-NotFound load failure.  With the entry
not resident and its durable file structurally invalid (load_tree reports
the non-NotFound error), the handler nevertheless reports success, installs
a fresh one-point index where the corrupt durable data was, and overwrites
the durable file with that fresh index — the caller never sees the error. -/
theorem C8_insert_swallows_load_error :
    load_tree c8Disk "idx" = LoadResult.otherError ∧
    (insert_point ⟨[1], "x"⟩ "idx" [("idx", ⟨none, 0⟩)] c8Disk 1000000 1).1 =
      InsertResponse.ok ∧
    (insert_point ⟨[1], "x"⟩ "idx" [("idx", ⟨none, 0⟩)] c8Disk 1000000 1).2.1 =
      [("idx", ⟨some ⟨Tree.node ⟨[1], "x"⟩ Tree.leaf Tree.leaf 0, 1⟩, 1⟩)] ∧
    (insert_point ⟨[1], "x"⟩ "idx" [("idx", ⟨none, 0⟩)] c8Disk 1000000 1).2.2 "idx" =
      some (save_to_file ⟨Tree.node ⟨[1], "x"⟩ Tree.leaf Tree.leaf 0, 1⟩) := by
  refine ⟨by decide, by decide, by decide, by decide⟩

lemma count_chainTree (m : ℕ) : count_nodes (chainTree m) = m := by
  induction m with
  | zero => rfl
  | succ n ih => simp [chainTree, count_nodes, ih]; omega

/-- C10: get_status installs successfully loaded offloaded indexes as
resident and leaves them resident, never changes any entry's last_accessed,
and never invokes the eviction policy — so for every budget there is a cache
and disk whose post-status resident total exceeds that budget until the next
mutating operation. -/
theorem C10_get_status_frame (trees : CacheMap) (disk : Disk) (now : ℕ) :
    List.Forall₂ (fun e e2 =>
      e2.1 = e.1 ∧
      e2.2.last_accessed = e.2.last_accessed ∧
      e2.2.tree = (match e.2.tree with
        | some t => some t
        | none =>
          (match load_tree disk e.1 with
           | LoadResult.ok t => some t
           | _ => none)))
      trees (get_status trees disk now).1 ∧
    (∀ budget : ℕ, ∃ trees2 disk2 now2,
      budget < total_memory (get_status trees2 disk2 now2).1) := by
  constructor
  · have hmap : (get_status trees disk now).1 = trees.map (fun e =>
        (e.1,
         match e.2.tree with
         | some _ => e.2
         | none =>
           (match load_tree disk e.1 with
            | LoadResult.ok loaded => { e.2 with tree := some loaded }
            | _ => e.2))) := by
      simp only [get_status, List.map_map]
      rfl
    rw [hmap]
    rw [List.forall₂_map_right_iff, List.forall₂_same]
    intro e _
    cases he : e.2.tree with
    | some t => exact ⟨rfl, rfl, he⟩
    | none =>
      cases hl : load_tree disk e.1 with
      | ok loaded => exact ⟨rfl, rfl, rfl⟩
      | notFound => exact ⟨rfl, rfl, he⟩
      | otherError => exact ⟨rfl, rfl, he⟩
  · intro budget
    refine ⟨[("big", ⟨none, 0⟩)],
      fun _ => some (save_to_file ⟨chainTree (budget + 1), 1⟩), 0, ?_⟩
    have hload : load_tree (fun _ => some (save_to_file ⟨chainTree (budget + 1), 1⟩)) "big"
        = LoadResult.ok ⟨chainTree (budget + 1), 1⟩ := by
      simp [load_tree, load_save]
    have hstat : (get_status [("big", ⟨none, 0⟩)]
        (fun _ => some (save_to_file ⟨chainTree (budget + 1), 1⟩)) 0).1
        = [("big", ⟨some ⟨chainTree (budget + 1), 1⟩, 0⟩)] := by
      simp [get_status, hload]
    rw [hstat]
    have htm : total_memory [("big", (⟨some ⟨chainTree (budget + 1), 1⟩, 0⟩ : KDTreeCache))]
        = size_of_KDTree + size_of_Node * (budget + 1) := by
      simp [total_memory, entry_memory, estimate_memory_usage, estimate_node_size_eq,
        count_chainTree]
    rw [htm]
    simp [size_of_KDTree, size_of_Node]
    omega

end VectorStore
